import Mathlib

/-!
Verification development for the incremental indexing and fast-path/slow-path
arbitration engine of `LSPIndexer` (src/main/lsp/LSPIndexer.cc).

The C++ code is shallowly embedded: the mutable indexer (`LSPIndexer`) becomes
an explicit `IndexerState` threaded through the operations, file paths and
contents are abstracted to `Nat` identifiers, `shared_ptr<core::File>` becomes
`Option File` where nullability matters, and the external collaborators
(`pipeline::computeFileHash`, `pipeline::index`, `pipeline::reserveFiles`,
`pipeline::decideStrictLevel`, the epoch manager) are modelled as concrete
deterministic functions or as explicit inputs (the epoch-manager status and the
outcome of the atomic `tryCancelSlowPath` race are inputs to `commitEdit`).
`ENFORCE` assertions are modelled as release-mode no-ops; the theorems carry
the corresponding facts as hypotheses where they matter.
-/

namespace Sorbet

/-- The `hierarchyHash` component of a file's definition hash
(`core::GlobalStateHash`): the uncomputed sentinel `HASH_STATE_NOT_COMPUTED`,
the syntax-error sentinel `HASH_STATE_INVALID`, or a concrete hash value. -/
inductive DefHash where
  | notComputed
  | invalid
  | hashVal (h : Nat)
deriving DecidableEq, Repr

/-- A `core::FileHash`, restricted to the definition-hierarchy component that
`LSPIndexer::canTakeFastPath` inspects. -/
structure FileHash where
  definitions : DefHash := .notComputed
deriving DecidableEq, Repr

/-- A `core::File`: a stable path, a content body, the lazily computed hash
(`getFileHash()` may be null), and the strict level assigned on entry. -/
structure File where
  path : Nat := 0
  contents : Nat := 0
  hash : Option FileHash := none
  strictLevel : Nat := 0
deriving DecidableEq, Repr

instance : Inhabited File := ⟨{}⟩

/-- An `ast::ParsedFile` tree; only the owning file id matters here. -/
structure ParsedFile where
  file : Nat := 0
deriving DecidableEq, Repr

instance : Inhabited ParsedFile := ⟨{}⟩

/-- The `UnorderedMap<int, shared_ptr<core::File>>` eviction maps, as an
association list keyed by file id with at most one binding per key in use. -/
abbrev EvMap := List (Nat × File)

/-- Lookup in an eviction map (`evictedFiles.find(id)`). -/
def lookupEv : EvMap → Nat → Option File
  | [], _ => none
  | e :: rest, k => if e.1 = k then some e.2 else lookupEv rest k

/-- Map assignment `m[k] = v`: replace the binding when the key is present,
append it otherwise. -/
def insertEv : EvMap → Nat → File → EvMap
  | [], k, v => [(k, v)]
  | e :: rest, k, v => if e.1 = k then (k, v) :: rest else e :: insertEv rest k v

/-- The first defined of two optional files. -/
def firstSome (a b : Option File) : Option File :=
  match a with
  | some x => some x
  | none => b

/-- `mergeEvictedFiles` (LSPIndexer.cc): merges `oldEvictedFiles` into
`newlyEvictedFiles`, keeping the older of two colliding file versions (every
entry of the old map overwrites the new map). -/
def mergeEvictedFiles (oldEvictedFiles newlyEvictedFiles : EvMap) : EvMap :=
  oldEvictedFiles.foldl (fun m e => insertEv m e.1 e.2) newlyEvictedFiles

/-- The file table and error queue of a `core::GlobalState`. File ids are
positions in `files`; the error queue is abstracted to an identity tag. -/
structure GlobalState where
  files : List File := []
  errorQueue : Nat := 0
deriving DecidableEq, Repr

/-- Index of the first occurrence of a path in a list of paths. -/
def findPathIdx : List Nat → Nat → Option Nat
  | [], _ => none
  | q :: rest, p => if q = p then some 0 else (findPathIdx rest p).map (· + 1)

/-- `GlobalState::findFileByPath`: the `FileRef` (file id) stored for a path,
or none when the path is absent. -/
def GlobalState.findFileByPath (gs : GlobalState) (p : Nat) : Option Nat :=
  findPathIdx (gs.files.map File.path) p

/-- `core::GlobalState::replaceFile`: overwrite the file stored at an id. -/
def GlobalState.replaceFile (gs : GlobalState) (i : Nat) (f : File) : GlobalState :=
  { gs with files := gs.files.set i f }

/-- Model of the external collaborator `pipeline::computeFileHash`: any
concrete total function from file content to a definition hash serves. -/
def pipelineComputeFileHash (f : File) : FileHash :=
  { definitions := .hashVal f.contents }

/-- Model of the external collaborator `pipeline::decideStrictLevel`. -/
def decideStrictLevel (_gs : GlobalState) (_fref : Nat) : Nat := 0

/-- Insert a number into a sorted list (ascending). -/
def insertSorted (x : Nat) : List Nat → List Nat
  | [] => [x]
  | y :: rest => if x ≤ y then x :: y :: rest else y :: insertSorted x rest

/-- Sort a list of numbers ascending (insertion sort). -/
def sortNats : List Nat → List Nat
  | [] => []
  | x :: rest => insertSorted x (sortNats rest)

/-- Model of the external collaborator `pipeline::index`: one parsed tree per
input `FileRef`, returned sorted by file id. -/
def pipelineIndex (_gs : GlobalState) (frefs : List Nat) : List ParsedFile :=
  (sortNats frefs).map (fun i => { file := i })

/-- Whether a nullable file already carries a hash (null files count as done,
mirroring the skip in `LSPIndexer::computeFileHashes`). -/
def fileHashed : Option File → Bool
  | none => true
  | some f => f.hash.isSome

/-- Install a hash on a file that lacks one; already-hashed files are
untouched. -/
def ensureHash (f : File) : File :=
  if f.hash.isSome then f else { f with hash := some (pipelineComputeFileHash f) }

/-- `LSPIndexer::computeFileHashes`: short-circuits when every non-null file
already has a hash, otherwise hashes exactly the unhashed non-null files.
Returns the updated file list and the number of `pipeline::computeFileHash`
invocations (the worker-pool scheduling is irrelevant to which files get
hashed, so the parallel loop is modelled by the per-file map). -/
def computeFileHashes (files : List (Option File)) : List (Option File) × Nat :=
  if files.all fileHashed then (files, 0)
  else
    (files.map (Option.map ensureHash),
     (files.filter (fun f => !fileHashed f)).length)

/-- `LSPIndexer::computeFileHashes` specialised to a file list without null
entries, as invoked on `edit.updates` and on `initialGS->getFiles()`. -/
def hashFiles (files : List File) : List File :=
  if files.all (fun f => f.hash.isSome) then files else files.map ensureHash

/-- An `LSPFileUpdates` record with the C++ default field values. -/
structure LSPFileUpdates where
  epoch : Nat := 0
  editCount : Nat := 0
  committedEditCount : Nat := 0
  canTakeFastPath : Bool := false
  canceledSlowPath : Bool := false
  hasNewFiles : Bool := false
  updatedFiles : List File := []
  updatedFileIndexes : List ParsedFile := []
  updatedGS : Option GlobalState := none
  cancellationExpected : Bool := false
  preemptionsExpected : Nat := 0
deriving DecidableEq, Repr

/-- Modelled from the spec: `LSPFileUpdates::copy` lives outside the provided
source file. Per the spec's data-model invariant, `updatedGS` is a slow-path
snapshot "populated only for slow-path updates" that the typechecker will
execute (§3); a copy of an update does not carry the non-copyable
`GlobalState` snapshot, and every other attribute is duplicated. -/
def LSPFileUpdates.copy (u : LSPFileUpdates) : LSPFileUpdates :=
  { u with updatedGS := none }

/-- Modelled from the spec: `LSPFileUpdates::mergeOlder` lives outside the
provided source file. Per §4.4: the result represents "apply `older` first,
then `self`"; for any path present in both, the newer content (from `self`)
wins, parsed trees are concatenated with the same de-duplication, `editCount`
is summed, the resulting `epoch` is `self.epoch`, and `hasNewFiles` is the
disjunction. `committedEditCount` accumulates (§3 describes it as the number
of edits already acknowledged into the pending slow path, and step 7 of §4.4
adds to it after a merge), as do the test-only expectation hints. -/
def LSPFileUpdates.mergeOlder (self older : LSPFileUpdates) : LSPFileUpdates :=
  let keep := (older.updatedFiles.zip older.updatedFileIndexes).filter
    (fun e => !((self.updatedFiles.map File.path).contains e.1.path))
  { self with
    updatedFiles := self.updatedFiles ++ keep.map Prod.fst
    updatedFileIndexes := self.updatedFileIndexes ++ keep.map Prod.snd
    editCount := self.editCount + older.editCount
    committedEditCount := self.committedEditCount + older.committedEditCount
    hasNewFiles := self.hasNewFiles || older.hasNewFiles
    cancellationExpected := self.cancellationExpected || older.cancellationExpected
    preemptionsExpected := self.preemptionsExpected + older.preemptionsExpected }

/-- The configuration bits of `LSPConfiguration` that the indexer reads. -/
structure LSPConfiguration where
  disableFastPath : Bool := false
  inputFileNames : List Nat := []
deriving DecidableEq, Repr

/-- The mutable state owned by an `LSPIndexer`. -/
structure IndexerState where
  config : LSPConfiguration := {}
  initialGS : GlobalState := {}
  initialized : Bool := false
  evictedFiles : EvMap := []
  pendingTypecheckUpdates : LSPFileUpdates := {}
  pendingTypecheckDiagnosticLatencyTimers : List Nat := []
deriving DecidableEq, Repr

/-- `getOldFile` (LSPIndexer.cc): the evicted version of a file when one is
recorded, the live `GlobalState` file otherwise. -/
def getOldFile (fref : Nat) (gs : GlobalState) (evictedFiles : EvMap) : File :=
  match lookupEv evictedFiles fref with
  | some f => f
  | none => gs.files.getD fref default

/-- The definition-hierarchy hash read off a file (`*f->getFileHash()`); a
missing hash reads as the uncomputed sentinel (guarded by `ENFORCE` in the
source). -/
def defHashOf (f : File) : DefHash :=
  match f.hash with
  | some h => h.definitions
  | none => .notComputed

/-- The per-file check of the `canTakeFastPath(changedFiles, ...)` loop body:
false when the path is absent from the `GlobalState` (`new_file`), when the
new definition hash is invalid (`syntax_error`), or when it differs from the
baseline file's definition hash (`changed_definition`). -/
def fastPathFileOk (gs : GlobalState) (evictedFilesRef : EvMap) (f : File) : Bool :=
  match gs.findFileByPath f.path with
  | none => false
  | some fref =>
    let oldHash := defHashOf (getOldFile fref gs evictedFilesRef)
    let newHash := defHashOf f
    if newHash = .invalid then false
    else if newHash ≠ .invalid ∧ newHash ≠ oldHash then false
    else true

/-- `LSPIndexer::canTakeFastPath(changedFiles, containsPendingTypecheckUpdates)`:
false when the fast path is disabled by configuration, otherwise every changed
file must pass `fastPathFileOk`, with evicted baselines consulted only when
`containsPendingTypecheckUpdates` is set. -/
def canTakeFastPathFiles (cfg : LSPConfiguration) (gs : GlobalState)
    (evictedFiles : EvMap) (changedFiles : List File)
    (containsPendingTypecheckUpdates : Bool) : Bool :=
  if cfg.disableFastPath then false
  else
    let evictedFilesRef : EvMap :=
      if containsPendingTypecheckUpdates then evictedFiles else []
    changedFiles.all (fastPathFileOk gs evictedFilesRef)

/-- `LSPIndexer::canTakeFastPath(edit, containsPendingTypecheckUpdates)`: an
update with a new file is forced onto the slow path, otherwise delegate to the
file-list overload. -/
def canTakeFastPathUpd (cfg : LSPConfiguration) (gs : GlobalState)
    (evictedFiles : EvMap) (edit : LSPFileUpdates)
    (containsPendingTypecheckUpdates : Bool) : Bool :=
  if edit.hasNewFiles then false
  else canTakeFastPathFiles cfg gs evictedFiles edit.updatedFiles
    containsPendingTypecheckUpdates

/-- A `SorbetWorkspaceEditParams` edit event. -/
structure SorbetWorkspaceEditParams where
  epoch : Nat := 0
  mergeCount : Nat := 0
  updates : List File := []
  sorbetCancellationExpected : Bool := false
  sorbetPreemptionsExpected : Nat := 0
  diagnosticLatencyTimers : List Nat := []
deriving DecidableEq, Repr

/-- The epoch manager's `getStatus()` report. -/
structure EpochStatus where
  slowPathRunning : Bool := false
  epoch : Nat := 0
deriving DecidableEq, Repr

/-- Accumulator of the `commitEdit` file-table mutation loop. -/
structure ApplyState where
  gs : GlobalState := {}
  newlyEvicted : EvMap := []
  hasNewFiles : Bool := false
  frefs : List Nat := []
deriving DecidableEq, Repr

/-- The file-table mutation loop of `commitEdit` (lines 242-262): for each
edit file in order, replace the stored file when the path exists (recording
the prior version in `newlyEvictedFiles`) or enter it as a new file (setting
`hasNewFiles` and assigning a strict level); collect the `FileRef`s in edit
order. -/
def applyEditFiles (s : ApplyState) : List File → ApplyState
  | [] => s
  | file :: rest =>
    match s.gs.findFileByPath file.path with
    | some fref =>
      applyEditFiles
        { gs := s.gs.replaceFile fref file
          newlyEvicted := insertEv s.newlyEvicted fref (s.gs.files.getD fref default)
          hasNewFiles := s.hasNewFiles
          frefs := s.frefs ++ [fref] } rest
    | none =>
      applyEditFiles
        { gs := { s.gs with files := s.gs.files ++
            [{ file with strictLevel := decideStrictLevel s.gs s.gs.files.length }] }
          newlyEvicted := s.newlyEvicted
          hasNewFiles := true
          frefs := s.frefs ++ [s.gs.files.length] } rest

/-- Position of a file id in the edit-order `frefs` list (the `fileToPos`
map of `commitEdit`). -/
def posOf (frefs : List Nat) (id : Nat) : Nat :=
  match frefs with
  | [] => 0
  | i :: rest => if i = id then 0 else posOf rest id + 1

/-- Reorder the id-sorted trees returned by `pipeline::index` back into edit
order (lines 285-289): resize to the tree count, then place each tree at its
edit position. -/
def reorderTrees (frefs : List Nat) (trees : List ParsedFile) : List ParsedFile :=
  trees.foldl (fun acc t => acc.set (posOf frefs t.file) t)
    (List.replicate trees.length default)

/-- Outcome of the pre-arbitration phase of `commitEdit` (lines 229-290):
the classified update with its re-indexed trees, the mutated `GlobalState`
(with the throwaway error queue installed), the newly evicted files, and the
edit-order `FileRef`s. -/
structure Prep where
  update : LSPFileUpdates := {}
  gs : GlobalState := {}
  newlyEvicted : EvMap := []
  frefs : List Nat := []
deriving DecidableEq, Repr

/-- Lines 229-290 of `commitEdit`: hash the edit's files, build the update
(fast-path classified against the pre-edit state without pending evictions),
install the files into the `GlobalState`, swap in a throwaway error queue,
and re-index the changed files back into edit order. -/
def commitPrepare (st : IndexerState) (edit : SorbetWorkspaceEditParams) : Prep :=
  let files := hashFiles edit.updates
  let u1 : LSPFileUpdates :=
    { epoch := edit.epoch
      editCount := edit.mergeCount + 1
      updatedFiles := files
      cancellationExpected := edit.sorbetCancellationExpected
      preemptionsExpected := edit.sorbetPreemptionsExpected }
  let u2 := { u1 with
    canTakeFastPath := canTakeFastPathUpd st.config st.initialGS st.evictedFiles u1 false }
  let a := applyEditFiles { gs := st.initialGS } files
  let gs := { a.gs with errorQueue := a.gs.errorQueue + 1 }
  { update := { u2 with
      hasNewFiles := a.hasNewFiles
      updatedFileIndexes := reorderTrees a.frefs (pipelineIndex gs a.frefs) }
    gs := gs
    newlyEvicted := a.newlyEvicted
    frefs := a.frefs }

/-- Lines 302-304 of `commitEdit`: the candidate merged update
`update.copy().mergeOlder(pendingTypecheckUpdates)`, reclassified against the
mutated `GlobalState` with pending evictions consulted. -/
def commitMerged (st : IndexerState) (p : Prep) : LSPFileUpdates :=
  let m := p.update.copy.mergeOlder st.pendingTypecheckUpdates
  { m with canTakeFastPath := canTakeFastPathUpd st.config p.gs st.evictedFiles m true }

/-- Outcome of the cancellation arbitration of `commitEdit`: the chosen
update, the possibly merged newly-evicted map, and whether
`tryCancelSlowPath` was invoked. -/
structure Choose where
  update : LSPFileUpdates := {}
  newlyEvicted : EvMap := []
  cancelAttempted : Bool := false
deriving DecidableEq, Repr

/-- Lines 292-313 of `commitEdit`: when the epoch manager reports a running
slow path, attempt cancellation exactly when the merged update takes the fast
path or the current update does not; on success (the `cancelSucceeds` input
models the atomic race) adopt the merged update, set `canceledSlowPath`, and
fold the prior `evictedFiles` into `newlyEvictedFiles`. -/
def commitChoose (st : IndexerState) (p : Prep) (status : EpochStatus)
    (cancelSucceeds : Bool) : Choose :=
  if status.slowPathRunning then
    let merged := commitMerged st p
    let attempted := merged.canTakeFastPath || !p.update.canTakeFastPath
    if attempted && cancelSucceeds then
      { update := { merged with canceledSlowPath := true }
        newlyEvicted := mergeEvictedFiles st.evictedFiles p.newlyEvicted
        cancelAttempted := attempted }
    else
      { update := p.update, newlyEvicted := p.newlyEvicted, cancelAttempted := attempted }
  else
    { update := p.update, newlyEvicted := p.newlyEvicted, cancelAttempted := false }

/-- Outcome of `commitEdit`: the returned update and the post-call indexer
state. -/
structure Finish where
  update : LSPFileUpdates := {}
  state : IndexerState := {}
deriving DecidableEq, Repr

/-- Lines 315-351 of `commitEdit`: merge or replace the diagnostic-latency
timers, fold the update into `pendingTypecheckUpdates` (fast path) or replace
the ledger after snapshotting `updatedGS` (slow path), install the merged
eviction map, and clear the test-only expectation hints on the ledger. -/
def commitFinish (st : IndexerState) (edit : SorbetWorkspaceEditParams)
    (gs : GlobalState) (update : LSPFileUpdates) (newlyEvicted : EvMap) : Finish :=
  let timers :=
    if update.canceledSlowPath then
      edit.diagnosticLatencyTimers ++ st.pendingTypecheckDiagnosticLatencyTimers
    else if !update.canTakeFastPath then edit.diagnosticLatencyTimers
    else st.pendingTypecheckDiagnosticLatencyTimers
  if update.canTakeFastPath then
    let merged := update.copy.mergeOlder st.pendingTypecheckUpdates
    let pending :=
      if !update.canceledSlowPath then
        { merged with committedEditCount := merged.committedEditCount + update.editCount }
      else merged
    { update := update
      state := { st with
        initialGS := gs
        evictedFiles := mergeEvictedFiles st.evictedFiles newlyEvicted
        pendingTypecheckUpdates :=
          { pending with cancellationExpected := false, preemptionsExpected := 0 }
        pendingTypecheckDiagnosticLatencyTimers := timers } }
  else
    let update2 := { update with updatedGS := some gs }
    { update := update2
      state := { st with
        initialGS := gs
        evictedFiles := newlyEvicted
        pendingTypecheckUpdates :=
          { update2.copy with cancellationExpected := false, preemptionsExpected := 0 }
        pendingTypecheckDiagnosticLatencyTimers := timers } }

/-- The full result of a `commitEdit` call. -/
structure CommitResult where
  update : LSPFileUpdates := {}
  state : IndexerState := {}
  cancelAttempted : Bool := false
deriving DecidableEq, Repr

/-- `LSPIndexer::commitEdit`, with the epoch-manager status and the outcome
of the `tryCancelSlowPath` race supplied by the environment. -/
def commitEdit (st : IndexerState) (edit : SorbetWorkspaceEditParams)
    (status : EpochStatus) (cancelSucceeds : Bool) : CommitResult :=
  let p := commitPrepare st edit
  let c := commitChoose st p status cancelSucceeds
  let f := commitFinish st edit p.gs c.update c.newlyEvicted
  { update := f.update, state := f.state, cancelAttempted := c.cancelAttempted }

/-- The message of the exception raised on re-initialization. -/
def alreadyInitMsg : String :=
  "Indexer is already initialized; cannot initialize a second time."

/-- Model of the external collaborator `pipeline::reserveFiles`: look up or
enter a file slot per input path, returning the `FileRef`s. -/
def reserveFiles (gs : GlobalState) : List Nat → GlobalState × List Nat
  | [] => (gs, [])
  | p :: rest =>
    match gs.findFileByPath p with
    | some i =>
      let r := reserveFiles gs rest
      (r.1, i :: r.2)
    | none =>
      let r := reserveFiles { gs with files := gs.files ++ [{ path := p }] } rest
      (r.1, gs.files.length :: r.2)

/-- Lines 199-205 of `initialize`: place each tree at its file id in a dense
vector, growing the vector as needed. -/
def densePlace (trees : List ParsedFile) : List ParsedFile :=
  trees.foldl
    (fun acc t =>
      let acc2 :=
        if acc.length ≤ t.file then
          acc ++ List.replicate (t.file + 1 - acc.length) default
        else acc
      acc2.set t.file t)
    []

/-- `LSPIndexer::initialize`: raises when already initialized; otherwise
swaps in a throwaway error queue, reserves and indexes the configured input
files, pads the dense tree vector to the `GlobalState` file count, hashes
every file, populates the output update with `epoch = 0`,
`canTakeFastPath = false`, the trees, and a deep copy of the `GlobalState`,
and finally restores the saved error queue. -/
def indexerInit (st : IndexerState) (updates : LSPFileUpdates) :
    Except String (IndexerState × LSPFileUpdates) :=
  if st.initialized then .error alreadyInitMsg
  else
    let saved := st.initialGS.errorQueue
    let gs1 := { st.initialGS with errorQueue := saved + 1 }
    let r := reserveFiles gs1 st.config.inputFileNames
    let indexed0 := densePlace (pipelineIndex r.1 r.2)
    let indexed :=
      if indexed0.length < r.1.files.length then
        indexed0 ++ List.replicate (r.1.files.length - indexed0.length) default
      else indexed0
    let gs3 := { r.1 with files := hashFiles r.1.files }
    let out := { updates with
      epoch := 0
      canTakeFastPath := false
      updatedFileIndexes := indexed
      updatedGS := some gs3 }
    .ok ({ st with initialized := true, initialGS := { gs3 with errorQueue := saved } }, out)


/-- The throwaway-error-queue `GlobalState` installed at the start of
`indexerInit`. -/
def initGS1 (st : IndexerState) : GlobalState :=
  { st.initialGS with errorQueue := st.initialGS.errorQueue + 1 }

/-- The `GlobalState` and input `FileRef`s after `indexerInit` reserves the
configured input files. -/
def initReserved (st : IndexerState) : GlobalState × List Nat :=
  reserveFiles (initGS1 st) st.config.inputFileNames

/-- The dense, padded tree vector built by `indexerInit`. -/
def initIndexed (st : IndexerState) : List ParsedFile :=
  let dp := densePlace (pipelineIndex (initReserved st).1 (initReserved st).2)
  if dp.length < (initReserved st).1.files.length then
    dp ++ List.replicate ((initReserved st).1.files.length - dp.length) default
  else dp

/-- The fully hashed `GlobalState` that `indexerInit` deep-copies into the
output update. -/
def initHashedGS (st : IndexerState) : GlobalState :=
  { (initReserved st).1 with files := hashFiles (initReserved st).1.files }

/-- The output update of a successful `indexerInit`. -/
def initOut (st : IndexerState) (updates : LSPFileUpdates) : LSPFileUpdates :=
  { updates with
    epoch := 0
    canTakeFastPath := false
    updatedFileIndexes := initIndexed st
    updatedGS := some (initHashedGS st) }

/-- The indexer state after a successful `indexerInit` (error queue
restored). -/
def initState (st : IndexerState) : IndexerState :=
  { st with
    initialized := true
    initialGS := { initHashedGS st with errorQueue := st.initialGS.errorQueue } }

/-- One-to-one edit-order alignment of an update's file and tree vectors
against a `GlobalState`: the two vectors have equal length, and at every
position the parsed tree's file id is the id under which the paired updated
file's path is stored in the file table. -/
def treesAligned (gs : GlobalState) (files : List File) (trees : List ParsedFile) : Prop :=
  files.length = trees.length ∧
  ∀ pr ∈ files.zip trees, (gs.files.map File.path).get? pr.2.file = some pr.1.path

instance treesAlignedDecidable (gs : GlobalState) (files : List File)
    (trees : List ParsedFile) : Decidable (treesAligned gs files trees) := by
  unfold treesAligned
  infer_instance

/-- A concrete hashed file stored in the test `GlobalState`. -/
def fileA : File :=
  { path := 1, contents := 10, hash := some { definitions := .hashVal 5 } }

/-- An edited version of `fileA`: new contents, unchanged definition hash. -/
def fileAEdited : File :=
  { path := 1, contents := 11, hash := some { definitions := .hashVal 5 } }

/-- A hashed file at a path absent from the test `GlobalState`. -/
def fileNew : File :=
  { path := 2, contents := 20, hash := some { definitions := .hashVal 9 } }

/-- A test indexer state with a running-slow-path ledger over `fileA`. -/
def stRunning : IndexerState :=
  { initialized := true
    initialGS := { files := [fileA] }
    pendingTypecheckUpdates :=
      { epoch := 1, editCount := 1, updatedFiles := [fileA],
        updatedFileIndexes := [{ file := 0 }] } }

/-- A test indexer state whose pending slow path contains a new file. -/
def stRunningNew : IndexerState :=
  { initialized := true
    initialGS := { files := [fileA] }
    pendingTypecheckUpdates := { epoch := 1, editCount := 1, hasNewFiles := true } }

/-- A test edit that rewrites `fileA` without changing its definition hash. -/
def editSameHash : SorbetWorkspaceEditParams :=
  { epoch := 2, mergeCount := 0, updates := [fileAEdited] }

/-- A test edit that introduces a new file. -/
def editNewFile : SorbetWorkspaceEditParams :=
  { epoch := 3, mergeCount := 0, updates := [fileNew] }

/-- An epoch-manager status reporting a running slow path. -/
def statusRunning : EpochStatus := { slowPathRunning := true, epoch := 1 }

/-- A fresh, uninitialized test indexer with one configured input file. -/
def stFresh : IndexerState := { config := { inputFileNames := [7] } }

/-- The state-and-update pair produced by `indexerInit` on the fresh test
indexer. -/
def freshInitResult : IndexerState × LSPFileUpdates :=
  match indexerInit stFresh {} with
  | .ok r => r
  | .error _ => ({}, {})

/-- The indexer state after initializing the fresh test indexer. -/
def freshInitState : IndexerState := freshInitResult.1

/-- The update produced by initializing the fresh test indexer. -/
def freshInitUpdate : LSPFileUpdates := freshInitResult.2

theorem lookupEv_insertEv (m : EvMap) (k : Nat) (v : File) (q : Nat) :
    lookupEv (insertEv m k v) q = if q = k then some v else lookupEv m q := by
  induction m with
  | nil =>
    by_cases hq : q = k
    · subst hq
      simp [insertEv, lookupEv]
    · simp [insertEv, lookupEv, hq, Ne.symm hq]
  | cons e rest ih =>
    by_cases hek : e.1 = k
    · simp only [insertEv, if_pos hek]
      by_cases hq : q = k
      · subst hq
        simp [lookupEv]
      · have h1 : ¬ k = q := fun h => hq h.symm
        have h2 : ¬ e.1 = q := fun h => hq ((hek.symm.trans h).symm)
        simp [lookupEv, h1, h2, hq]
    · simp only [insertEv, if_neg hek, lookupEv, ih]
      by_cases heq : e.1 = q
      · have hqk : ¬ q = k := fun h => hek (heq.trans h)
        simp [heq, hqk]
      · simp [heq]

theorem lookupEv_eq_none_of_not_mem (m : EvMap) (k : Nat)
    (h : k ∉ m.map Prod.fst) : lookupEv m k = none := by
  induction m with
  | nil => rfl
  | cons e rest ih =>
    simp only [List.map_cons, List.mem_cons, not_or] at h
    have h1 : ¬ e.1 = k := fun he => h.1 he.symm
    simp only [lookupEv, if_neg h1]
    exact ih h.2

theorem lookupEv_isSome_insertEv (m : EvMap) (k : Nat) (v : File) (q : Nat)
    (h : (lookupEv m q).isSome = true) :
    (lookupEv (insertEv m k v) q).isSome = true := by
  rw [lookupEv_insertEv]
  by_cases hq : q = k <;> simp [hq, h]

theorem lookupEv_mergeEvictedFiles (oldEv : EvMap)
    (hnd : (oldEv.map Prod.fst).Nodup) :
    ∀ (newEv : EvMap) (k : Nat),
      lookupEv (mergeEvictedFiles oldEv newEv) k
        = firstSome (lookupEv oldEv k) (lookupEv newEv k) := by
  induction oldEv with
  | nil =>
    intro newEv k
    simp [mergeEvictedFiles, lookupEv, firstSome]
  | cons e rest ih =>
    intro newEv k
    simp only [List.map_cons, List.nodup_cons] at hnd
    have step : mergeEvictedFiles (e :: rest) newEv
        = mergeEvictedFiles rest (insertEv newEv e.1 e.2) := rfl
    rw [step, ih hnd.2, lookupEv_insertEv]
    by_cases hk : k = e.1
    · subst hk
      have hnone : lookupEv rest e.1 = none :=
        lookupEv_eq_none_of_not_mem rest e.1 hnd.1
      simp [lookupEv, hnone, firstSome]
    · have hek : ¬ e.1 = k := fun h => hk h.symm
      rw [if_neg hk]
      simp [lookupEv, if_neg hek]

theorem lookupEv_isSome_mergeEvictedFiles (oldEv newEv : EvMap) (k : Nat)
    (h : (lookupEv newEv k).isSome = true) :
    (lookupEv (mergeEvictedFiles oldEv newEv) k).isSome = true := by
  induction oldEv generalizing newEv with
  | nil => simpa [mergeEvictedFiles] using h
  | cons e rest ih =>
    have step : mergeEvictedFiles (e :: rest) newEv
        = mergeEvictedFiles rest (insertEv newEv e.1 e.2) := rfl
    rw [step]
    exact ih _ (lookupEv_isSome_insertEv _ _ _ _ h)

/-- C4: merging evicted-file maps keeps the eldest version: a `FileId` bound
in the old `evictedFiles` map keeps the old version in the merged map
(including on a collision with a newly evicted version), and a `FileId`
absent from the old map keeps the newly evicted version, so an id present in
only one map keeps its sole version. -/
theorem mergeEvictedFiles_keeps_eldest (oldEv newEv : EvMap)
    (hnd : (oldEv.map Prod.fst).Nodup) :
    (∀ k v, lookupEv oldEv k = some v →
        lookupEv (mergeEvictedFiles oldEv newEv) k = some v) ∧
    (∀ k, lookupEv oldEv k = none →
        lookupEv (mergeEvictedFiles oldEv newEv) k = lookupEv newEv k) := by
  constructor
  · intro k v hv
    rw [lookupEv_mergeEvictedFiles oldEv hnd newEv k, hv]
    rfl
  · intro k hk
    rw [lookupEv_mergeEvictedFiles oldEv hnd newEv k, hk]
    rfl

/-- C4 witness: on a concrete collision at file id 0 the merged map keeps the
older version. -/
theorem mergeEvictedFiles_keeps_eldest_witness :
    (([(0, ({ path := 0, contents := 1 } : File)), (1, { path := 1, contents := 2 })].map
        Prod.fst).Nodup
      ∧ lookupEv (mergeEvictedFiles
          [(0, { path := 0, contents := 1 }), (1, { path := 1, contents := 2 })]
          [(0, { path := 0, contents := 3 }), (2, { path := 2, contents := 4 })]) 0
        = some { path := 0, contents := 1 }) := by
  refine ⟨by decide, ?_⟩
  exact (mergeEvictedFiles_keeps_eldest
    [(0, { path := 0, contents := 1 }), (1, { path := 1, contents := 2 })]
    [(0, { path := 0, contents := 3 }), (2, { path := 2, contents := 4 })]
    (by decide)).1 0 { path := 0, contents := 1 } (by decide)


theorem ensureHash_of_isSome (f : File) (h : f.hash.isSome = true) :
    ensureHash f = f := by
  simp [ensureHash, h]

theorem all_fileHashed_map_ensureHash (files : List (Option File)) :
    (files.map (Option.map ensureHash)).all fileHashed = true := by
  induction files with
  | nil => rfl
  | cons f? rest ih =>
    cases f? with
    | none => simp only [List.map_cons, Option.map_none', List.all_cons, fileHashed,
        Bool.true_and]; exact ih
    | some f =>
      simp only [List.map_cons, List.all_cons, Option.map_some', Bool.and_eq_true]
      refine ⟨?_, ih⟩
      simp only [fileHashed, ensureHash]
      split_ifs with h <;> simp [h]

theorem nthOptMap (g : Option File → Option File) (l : List (Option File)) (i : Nat) :
    (l.map g).get? i = (l.get? i).map g := by
  induction l generalizing i with
  | nil => simp
  | cons x rest ih =>
    cases i with
    | zero => simp
    | succ j => simp only [List.map_cons, List.get?_cons_succ]; exact ih j

/-- C8: `computeFileHashes` is idempotent. When every non-null input file
already has a hash, the call returns the files unchanged with zero
`pipeline::computeFileHash` invocations; a second call on the result of any
call performs zero hashing work; and a file that already carries a hash is
returned unchanged by any call (its installed hash is never overwritten). -/
theorem computeFileHashes_idempotent (files : List (Option File)) :
    (files.all fileHashed = true → computeFileHashes files = (files, 0)) ∧
    computeFileHashes (computeFileHashes files).1 = ((computeFileHashes files).1, 0) ∧
    (∀ i f, files.get? i = some (some f) → f.hash.isSome = true →
      (computeFileHashes files).1.get? i = some (some f)) := by
  refine ⟨?_, ?_, ?_⟩
  · intro h
    simp [computeFileHashes, h]
  · by_cases h : files.all fileHashed
    · simp [computeFileHashes, h]
    · simp only [computeFileHashes, if_neg h]
      simp [all_fileHashed_map_ensureHash files]
  · intro i f hget hsome
    by_cases h : files.all fileHashed
    · simp only [computeFileHashes, if_pos h]
      exact hget
    · simp only [computeFileHashes, if_neg h]
      rw [nthOptMap, hget]
      simp [ensureHash_of_isSome f hsome]

/-- C8 witness: a concrete fully hashed file list is returned unchanged with
zero hashing invocations, and a concrete hashed entry is never overwritten. -/
theorem computeFileHashes_idempotent_witness :
    ([some ({ path := 1, hash := some { definitions := .hashVal 3 } } : File), none].all
        fileHashed = true) ∧
    computeFileHashes [some ({ path := 1, hash := some { definitions := .hashVal 3 } } : File), none]
      = ([some { path := 1, hash := some { definitions := .hashVal 3 } }, none], 0) ∧
    (computeFileHashes [some ({ path := 2, hash := some { definitions := .hashVal 4 } } : File),
        some { path := 3 }]).1.get? 0
      = some (some { path := 2, hash := some { definitions := .hashVal 4 } }) := by
  refine ⟨by decide, ?_, ?_⟩
  · exact (computeFileHashes_idempotent
      [some { path := 1, hash := some { definitions := .hashVal 3 } }, none]).1 (by decide)
  · exact (computeFileHashes_idempotent
      [some { path := 2, hash := some { definitions := .hashVal 4 } }, some { path := 3 }]).2.2
      0 { path := 2, hash := some { definitions := .hashVal 4 } } (by decide) (by decide)


theorem fastPathFileOk_eq_false (gs : GlobalState) (evRef : EvMap) (f : File) :
    fastPathFileOk gs evRef f = false ↔
      gs.findFileByPath f.path = none ∨ defHashOf f = DefHash.invalid ∨
      ∃ i, gs.findFileByPath f.path = some i ∧
        defHashOf f ≠ defHashOf (getOldFile i gs evRef) := by
  unfold fastPathFileOk
  cases h : gs.findFileByPath f.path with
  | none => simp [h]
  | some i =>
    by_cases hN : defHashOf f = DefHash.invalid
    · simp [h, hN]
    · by_cases hNO : defHashOf f = defHashOf (getOldFile i gs evRef)
      · simp [h, hN, hNO]
      · simp [h, hN, hNO]

theorem all_eq_false_iff (changed : List File) (P : File → Bool) :
    changed.all P = false ↔ ∃ f ∈ changed, P f = false := by
  rw [← Bool.not_eq_true, List.all_eq_true]
  push_neg
  simp [Bool.not_eq_true]

/-- C3: for changed files whose hashes are present, the fast-path
classification returns false exactly when the fast path is disabled by
configuration, or some changed file's path is absent from the live
`GlobalState`, or some changed file's new definition hash is invalid, or some
changed file's new definition hash differs from the baseline file's — the
baseline consulting the evicted files exactly when
`containsPendingTypecheckUpdates` is set. -/
theorem canTakeFastPath_characterization (cfg : LSPConfiguration)
    (gs : GlobalState) (ev : EvMap) (changed : List File) (pending : Bool)
    (_hhash : ∀ f ∈ changed, f.hash.isSome = true) :
    canTakeFastPathFiles cfg gs ev changed pending = false ↔
      (cfg.disableFastPath = true ∨
       (∃ f ∈ changed, gs.findFileByPath f.path = none) ∨
       (∃ f ∈ changed, defHashOf f = DefHash.invalid) ∨
       (∃ f ∈ changed, ∃ i, gs.findFileByPath f.path = some i ∧
          defHashOf f ≠ defHashOf (getOldFile i gs (if pending then ev else [])))) := by
  unfold canTakeFastPathFiles
  by_cases hd : cfg.disableFastPath
  · simp [hd]
  · simp only [hd, Bool.false_eq_true, if_false, false_or]
    rw [all_eq_false_iff]
    simp only [fastPathFileOk_eq_false]
    constructor
    · rintro ⟨f, hf, hnone | hinv | hdiff⟩
      · exact Or.inl ⟨f, hf, hnone⟩
      · exact Or.inr (Or.inl ⟨f, hf, hinv⟩)
      · exact Or.inr (Or.inr ⟨f, hf, hdiff⟩)
    · rintro (⟨f, hf, hnone⟩ | ⟨f, hf, hinv⟩ | ⟨f, hf, hdiff⟩)
      · exact ⟨f, hf, Or.inl hnone⟩
      · exact ⟨f, hf, Or.inr (Or.inl hinv)⟩
      · exact ⟨f, hf, Or.inr (Or.inr hdiff)⟩

/-- C3 witness: a changed file whose definition hash differs from the live
baseline is classified onto the slow path. -/
theorem canTakeFastPath_characterization_witness :
    (∀ f ∈ [({ path := 1, contents := 9, hash := some { definitions := .hashVal 6 } } : File)],
        f.hash.isSome = true) ∧
    (canTakeFastPathFiles {} { files := [{ path := 1, hash := some { definitions := .hashVal 5 } }] }
        [] [{ path := 1, contents := 9, hash := some { definitions := .hashVal 6 } }] false = false ↔
      (({} : LSPConfiguration).disableFastPath = true ∨
       (∃ f ∈ [({ path := 1, contents := 9, hash := some { definitions := .hashVal 6 } } : File)],
          GlobalState.findFileByPath { files := [{ path := 1, hash := some { definitions := .hashVal 5 } }] } f.path = none) ∨
       (∃ f ∈ [({ path := 1, contents := 9, hash := some { definitions := .hashVal 6 } } : File)],
          defHashOf f = DefHash.invalid) ∨
       (∃ f ∈ [({ path := 1, contents := 9, hash := some { definitions := .hashVal 6 } } : File)],
          ∃ i, GlobalState.findFileByPath { files := [{ path := 1, hash := some { definitions := .hashVal 5 } }] } f.path = some i ∧
            defHashOf f ≠ defHashOf (getOldFile i
              { files := [{ path := 1, hash := some { definitions := .hashVal 5 } }] }
              (if false then [] else []))))) :=
  ⟨by decide, canTakeFastPath_characterization {}
    { files := [{ path := 1, hash := some { definitions := .hashVal 5 } }] } []
    [{ path := 1, contents := 9, hash := some { definitions := .hashVal 6 } }] false
    (by decide)⟩


theorem copy_updatedGS (u : LSPFileUpdates) : u.copy.updatedGS = none := rfl

theorem copy_epoch (u : LSPFileUpdates) : u.copy.epoch = u.epoch := rfl

theorem copy_editCount (u : LSPFileUpdates) : u.copy.editCount = u.editCount := rfl

theorem copy_committedEditCount (u : LSPFileUpdates) :
    u.copy.committedEditCount = u.committedEditCount := rfl

theorem copy_canceledSlowPath (u : LSPFileUpdates) :
    u.copy.canceledSlowPath = u.canceledSlowPath := rfl

theorem mergeOlder_epoch (a b : LSPFileUpdates) : (a.mergeOlder b).epoch = a.epoch := rfl

theorem mergeOlder_editCount (a b : LSPFileUpdates) :
    (a.mergeOlder b).editCount = a.editCount + b.editCount := rfl

theorem mergeOlder_committedEditCount (a b : LSPFileUpdates) :
    (a.mergeOlder b).committedEditCount = a.committedEditCount + b.committedEditCount := rfl

theorem mergeOlder_updatedGS (a b : LSPFileUpdates) : (a.mergeOlder b).updatedGS = a.updatedGS := rfl

theorem mergeOlder_canceledSlowPath (a b : LSPFileUpdates) :
    (a.mergeOlder b).canceledSlowPath = a.canceledSlowPath := rfl

theorem mergeOlder_hasNewFiles (a b : LSPFileUpdates) :
    (a.mergeOlder b).hasNewFiles = (a.hasNewFiles || b.hasNewFiles) := rfl

theorem commitPrepare_epoch (st : IndexerState) (edit : SorbetWorkspaceEditParams) :
    (commitPrepare st edit).update.epoch = edit.epoch := rfl

theorem commitPrepare_editCount (st : IndexerState) (edit : SorbetWorkspaceEditParams) :
    (commitPrepare st edit).update.editCount = edit.mergeCount + 1 := rfl

theorem commitPrepare_committedEditCount (st : IndexerState) (edit : SorbetWorkspaceEditParams) :
    (commitPrepare st edit).update.committedEditCount = 0 := rfl

theorem commitPrepare_canceledSlowPath (st : IndexerState) (edit : SorbetWorkspaceEditParams) :
    (commitPrepare st edit).update.canceledSlowPath = false := rfl

theorem commitPrepare_updatedGS (st : IndexerState) (edit : SorbetWorkspaceEditParams) :
    (commitPrepare st edit).update.updatedGS = none := rfl

theorem commitMerged_epoch (st : IndexerState) (p : Prep) :
    (commitMerged st p).epoch = p.update.epoch := rfl

theorem commitMerged_updatedGS (st : IndexerState) (p : Prep) :
    (commitMerged st p).updatedGS = none := rfl

theorem commitMerged_canceledSlowPath (st : IndexerState) (p : Prep) :
    (commitMerged st p).canceledSlowPath = p.update.canceledSlowPath := rfl

theorem commitChoose_update_cases (st : IndexerState) (p : Prep) (status : EpochStatus)
    (co : Bool) :
    (commitChoose st p status co).update = p.update ∨
    (commitChoose st p status co).update = { commitMerged st p with canceledSlowPath := true } := by
  simp only [commitChoose]
  split
  · split
    · exact Or.inr rfl
    · exact Or.inl rfl
  · exact Or.inl rfl

theorem commitChoose_newlyEvicted_cases (st : IndexerState) (p : Prep) (status : EpochStatus)
    (co : Bool) :
    (commitChoose st p status co).newlyEvicted = p.newlyEvicted ∨
    (commitChoose st p status co).newlyEvicted
      = mergeEvictedFiles st.evictedFiles p.newlyEvicted := by
  simp only [commitChoose]
  split
  · split
    · exact Or.inr rfl
    · exact Or.inl rfl
  · exact Or.inl rfl

theorem commitChoose_attempted (st : IndexerState) (p : Prep) (status : EpochStatus) (co : Bool)
    (h : status.slowPathRunning = true) :
    (commitChoose st p status co).cancelAttempted
      = ((commitMerged st p).canTakeFastPath || !p.update.canTakeFastPath) := by
  simp only [commitChoose]
  rw [if_pos h]
  split <;> rfl

theorem commitChoose_success (st : IndexerState) (p : Prep) (status : EpochStatus) (co : Bool)
    (h : status.slowPathRunning = true)
    (hatt : ((commitMerged st p).canTakeFastPath || !p.update.canTakeFastPath) = true)
    (hco : co = true) :
    commitChoose st p status co
      = { update := { commitMerged st p with canceledSlowPath := true }
          newlyEvicted := mergeEvictedFiles st.evictedFiles p.newlyEvicted
          cancelAttempted := true } := by
  simp only [commitChoose]
  rw [if_pos h, hatt, hco]
  rfl

theorem commitFinish_update_eq (st : IndexerState) (edit : SorbetWorkspaceEditParams)
    (gs : GlobalState) (u : LSPFileUpdates) (ne : EvMap) :
    (commitFinish st edit gs u ne).update
      = if u.canTakeFastPath then u else { u with updatedGS := some gs } := by
  simp only [commitFinish]
  split <;> rfl

theorem commitFinish_state_initialGS (st : IndexerState) (edit : SorbetWorkspaceEditParams)
    (gs : GlobalState) (u : LSPFileUpdates) (ne : EvMap) :
    (commitFinish st edit gs u ne).state.initialGS = gs := by
  simp only [commitFinish]
  split <;> rfl

theorem commitFinish_state_evicted (st : IndexerState) (edit : SorbetWorkspaceEditParams)
    (gs : GlobalState) (u : LSPFileUpdates) (ne : EvMap) :
    (commitFinish st edit gs u ne).state.evictedFiles
      = if u.canTakeFastPath then mergeEvictedFiles st.evictedFiles ne else ne := by
  simp only [commitFinish]
  split <;> rfl

theorem commitFinish_pending_epoch (st : IndexerState) (edit : SorbetWorkspaceEditParams)
    (gs : GlobalState) (u : LSPFileUpdates) (ne : EvMap) :
    (commitFinish st edit gs u ne).state.pendingTypecheckUpdates.epoch = u.epoch := by
  simp only [commitFinish]
  split
  · split <;> rfl
  · rfl

theorem commitFinish_timers (st : IndexerState) (edit : SorbetWorkspaceEditParams)
    (gs : GlobalState) (u : LSPFileUpdates) (ne : EvMap) :
    (commitFinish st edit gs u ne).state.pendingTypecheckDiagnosticLatencyTimers
      = if u.canceledSlowPath then
          edit.diagnosticLatencyTimers ++ st.pendingTypecheckDiagnosticLatencyTimers
        else if !u.canTakeFastPath then edit.diagnosticLatencyTimers
        else st.pendingTypecheckDiagnosticLatencyTimers := by
  simp only [commitFinish]
  split <;> rfl

theorem commitEdit_update_def (st : IndexerState) (edit : SorbetWorkspaceEditParams)
    (status : EpochStatus) (co : Bool) :
    (commitEdit st edit status co).update
      = (commitFinish st edit (commitPrepare st edit).gs
          (commitChoose st (commitPrepare st edit) status co).update
          (commitChoose st (commitPrepare st edit) status co).newlyEvicted).update := rfl

theorem commitEdit_state_def (st : IndexerState) (edit : SorbetWorkspaceEditParams)
    (status : EpochStatus) (co : Bool) :
    (commitEdit st edit status co).state
      = (commitFinish st edit (commitPrepare st edit).gs
          (commitChoose st (commitPrepare st edit) status co).update
          (commitChoose st (commitPrepare st edit) status co).newlyEvicted).state := rfl

theorem commitEdit_attempted_def (st : IndexerState) (edit : SorbetWorkspaceEditParams)
    (status : EpochStatus) (co : Bool) :
    (commitEdit st edit status co).cancelAttempted
      = (commitChoose st (commitPrepare st edit) status co).cancelAttempted := rfl

theorem commitChoose_update_updatedGS (st : IndexerState) (p : Prep) (status : EpochStatus)
    (co : Bool) (hp : p.update.updatedGS = none) :
    (commitChoose st p status co).update.updatedGS = none := by
  rcases commitChoose_update_cases st p status co with h | h <;> rw [h]
  · exact hp
  · exact commitMerged_updatedGS st p

theorem commitChoose_update_epoch (st : IndexerState) (p : Prep) (status : EpochStatus)
    (co : Bool) :
    (commitChoose st p status co).update.epoch = p.update.epoch := by
  rcases commitChoose_update_cases st p status co with h | h <;> rw [h]
  exact commitMerged_epoch st p

/-- C5: the returned update of every `commitEdit` carries a `GlobalState`
snapshot exactly when it is a slow-path update — populated with the (deep
copy of the) post-edit `GlobalState` on the slow-path branch and absent from
every fast-path update, including a cancel-and-merge update that takes the
fast path — and the update produced by `initialize` carries a snapshot and is
marked as slow path. -/
theorem updatedGS_iff_slow_path (st : IndexerState) (edit : SorbetWorkspaceEditParams)
    (status : EpochStatus) (co : Bool) (st0 : IndexerState) (u0 : LSPFileUpdates)
    (st1 : IndexerState) (u1 : LSPFileUpdates) :
    ((commitEdit st edit status co).update.updatedGS.isSome
        = !(commitEdit st edit status co).update.canTakeFastPath) ∧
    ((commitEdit st edit status co).update.canTakeFastPath = false →
        (commitEdit st edit status co).update.updatedGS = some (commitPrepare st edit).gs) ∧
    (indexerInit st0 u0 = Except.ok (st1, u1) →
        u1.updatedGS.isSome = true ∧ u1.canTakeFastPath = false) := by
  have hnone : (commitChoose st (commitPrepare st edit) status co).update.updatedGS = none :=
    commitChoose_update_updatedGS st (commitPrepare st edit) status co
      (commitPrepare_updatedGS st edit)
  have hup := commitEdit_update_def st edit status co
  rw [commitFinish_update_eq] at hup
  refine ⟨?_, ?_, ?_⟩
  · rw [hup]
    by_cases h : (commitChoose st (commitPrepare st edit) status co).update.canTakeFastPath = true
    · rw [if_pos h, h, hnone]
      rfl
    · rw [if_neg h]
      have h' : (commitChoose st (commitPrepare st edit) status co).update.canTakeFastPath
          = false := by
        revert h
        cases (commitChoose st (commitPrepare st edit) status co).update.canTakeFastPath <;> simp
      show (some (commitPrepare st edit).gs).isSome
        = !(commitChoose st (commitPrepare st edit) status co).update.canTakeFastPath
      rw [h']
      rfl
  · intro hslow
    rw [hup] at hslow ⊢
    by_cases h : (commitChoose st (commitPrepare st edit) status co).update.canTakeFastPath = true
    · rw [if_pos h] at hslow
      rw [h] at hslow
      exact absurd hslow (by simp)
    · rw [if_neg h]
  · intro h
    unfold indexerInit at h
    by_cases hin : st0.initialized = true
    · rw [if_pos hin] at h
      exact absurd h (by simp)
    · rw [if_neg hin] at h
      simp only [Except.ok.injEq, Prod.mk.injEq] at h
      rcases h with ⟨-, hu⟩
      rw [← hu]
      exact ⟨rfl, rfl⟩

/-- C5 witness: a concrete fast-path `commitEdit` carries no snapshot, and the
concrete `indexerInit` run produces a slow-path update with a snapshot. -/
theorem updatedGS_iff_slow_path_witness :
    ((commitEdit stRunning editSameHash statusRunning true).update.updatedGS.isSome
        = !(commitEdit stRunning editSameHash statusRunning true).update.canTakeFastPath) ∧
    (indexerInit stFresh {} = Except.ok (freshInitState, freshInitUpdate) →
        freshInitUpdate.updatedGS.isSome = true ∧ freshInitUpdate.canTakeFastPath = false) ∧
    freshInitUpdate.updatedGS.isSome = true :=
  ⟨(updatedGS_iff_slow_path stRunning editSameHash statusRunning true stFresh {}
      freshInitState freshInitUpdate).1,
   (updatedGS_iff_slow_path stRunning editSameHash statusRunning true stFresh {}
      freshInitState freshInitUpdate).2.2,
   ((updatedGS_iff_slow_path stRunning editSameHash statusRunning true stFresh {}
      freshInitState freshInitUpdate).2.2 rfl).1⟩

/-- C7: `pendingTypecheckUpdates.epoch` equals the newest edit's epoch after
every `commitEdit` (on the fast-path merge branch and on the slow-path replace
branch alike), so under monotonically non-decreasing edit epochs the pending
epoch is monotonically non-decreasing across calls. -/
theorem pending_epoch_monotone (st : IndexerState) (edit : SorbetWorkspaceEditParams)
    (status : EpochStatus) (co : Bool) :
    (commitEdit st edit status co).state.pendingTypecheckUpdates.epoch = edit.epoch ∧
    (st.pendingTypecheckUpdates.epoch ≤ edit.epoch →
      st.pendingTypecheckUpdates.epoch
        ≤ (commitEdit st edit status co).state.pendingTypecheckUpdates.epoch) := by
  have h1 : (commitEdit st edit status co).state.pendingTypecheckUpdates.epoch = edit.epoch := by
    rw [commitEdit_state_def, commitFinish_pending_epoch, commitChoose_update_epoch,
      commitPrepare_epoch]
  exact ⟨h1, fun hle => h1 ▸ hle⟩

/-- C7 witness: the concrete fast-path cancel-and-merge commit leaves the
pending epoch at the edit's epoch, preserving monotonicity. -/
theorem pending_epoch_monotone_witness :
    stRunning.pendingTypecheckUpdates.epoch ≤ editSameHash.epoch ∧
    stRunning.pendingTypecheckUpdates.epoch
      ≤ (commitEdit stRunning editSameHash statusRunning true).state.pendingTypecheckUpdates.epoch :=
  ⟨by decide,
   (pending_epoch_monotone stRunning editSameHash statusRunning true).2 (by decide)⟩


theorem withCanceled_canTakeFastPath (u : LSPFileUpdates) :
    ({ u with canceledSlowPath := true } : LSPFileUpdates).canTakeFastPath
      = u.canTakeFastPath := rfl

theorem commitFinish_pending_cec_fast (st : IndexerState) (edit : SorbetWorkspaceEditParams)
    (gs : GlobalState) (u : LSPFileUpdates) (ne : EvMap)
    (hf : u.canTakeFastPath = true) (hc : u.canceledSlowPath = false) :
    (commitFinish st edit gs u ne).state.pendingTypecheckUpdates.committedEditCount
      = u.committedEditCount + st.pendingTypecheckUpdates.committedEditCount + u.editCount := by
  simp only [commitFinish]
  rw [if_pos hf, hc]
  rfl

/-- C2 counterexample: with a slow path running, an arriving edit that itself
takes the fast path and whose merge with the pending updates also takes the
fast path DOES have cancellation attempted (the code cancels whenever the
merged update can take the fast path), and on success the returned update has
`canceledSlowPath = true` — contradicting the claim that no cancellation is
attempted in this situation. -/
theorem commitEdit_fastFast_attempts_cancel :
    (commitPrepare stRunning editSameHash).update.canTakeFastPath = true ∧
    (commitMerged stRunning (commitPrepare stRunning editSameHash)).canTakeFastPath = true ∧
    (commitEdit stRunning editSameHash statusRunning true).cancelAttempted = true ∧
    (commitEdit stRunning editSameHash statusRunning true).update.canceledSlowPath = true :=
  ⟨rfl, rfl, rfl, rfl⟩

/-- C2 (amended): if a slow path is running, the arriving edit itself can take
the fast path, and the merged update CANNOT take the fast path, then
`commitEdit` attempts no cancellation, the returned update has
`canceledSlowPath = false`, `pendingTypecheckUpdates.committedEditCount`
increases by the arriving update's edit count, and the pending
diagnostic-latency timers are left unchanged. -/
theorem commitEdit_fast_noCancelAttempt (st : IndexerState)
    (edit : SorbetWorkspaceEditParams) (status : EpochStatus) (co : Bool)
    (hrun : status.slowPathRunning = true)
    (hfast : (commitPrepare st edit).update.canTakeFastPath = true)
    (hmerged : (commitMerged st (commitPrepare st edit)).canTakeFastPath = false) :
    (commitEdit st edit status co).cancelAttempted = false ∧
    (commitEdit st edit status co).update.canceledSlowPath = false ∧
    (commitEdit st edit status co).state.pendingTypecheckUpdates.committedEditCount
      = st.pendingTypecheckUpdates.committedEditCount + (edit.mergeCount + 1) ∧
    (commitEdit st edit status co).state.pendingTypecheckDiagnosticLatencyTimers
      = st.pendingTypecheckDiagnosticLatencyTimers := by
  have hchoose : commitChoose st (commitPrepare st edit) status co
      = { update := (commitPrepare st edit).update
          newlyEvicted := (commitPrepare st edit).newlyEvicted
          cancelAttempted := false } := by
    simp only [commitChoose]
    rw [if_pos hrun, hmerged, hfast]
    rfl
  refine ⟨?_, ?_, ?_, ?_⟩
  · rw [commitEdit_attempted_def, hchoose]
  · rw [commitEdit_update_def, hchoose, commitFinish_update_eq, if_pos hfast,
      commitPrepare_canceledSlowPath]
  · rw [commitEdit_state_def, hchoose,
      commitFinish_pending_cec_fast st edit (commitPrepare st edit).gs
        (commitPrepare st edit).update (commitPrepare st edit).newlyEvicted hfast
        (commitPrepare_canceledSlowPath st edit),
      commitPrepare_committedEditCount, commitPrepare_editCount]
    omega
  · rw [commitEdit_state_def, hchoose, commitFinish_timers,
      commitPrepare_canceledSlowPath, hfast]
    rfl

/-- C2 (amended) witness: concrete fast edit over a running slow path whose
pending update holds a new file (so the merged update is slow): no attempt,
no cancellation, committed edit count bumped, timers untouched. -/
theorem commitEdit_fast_noCancelAttempt_witness :
    statusRunning.slowPathRunning = true ∧
    (commitPrepare stRunningNew editSameHash).update.canTakeFastPath = true ∧
    (commitMerged stRunningNew (commitPrepare stRunningNew editSameHash)).canTakeFastPath
      = false ∧
    ((commitEdit stRunningNew editSameHash statusRunning true).cancelAttempted = false ∧
     (commitEdit stRunningNew editSameHash statusRunning true).update.canceledSlowPath = false ∧
     (commitEdit stRunningNew editSameHash statusRunning true).state.pendingTypecheckUpdates.committedEditCount
       = stRunningNew.pendingTypecheckUpdates.committedEditCount + (editSameHash.mergeCount + 1) ∧
     (commitEdit stRunningNew editSameHash statusRunning true).state.pendingTypecheckDiagnosticLatencyTimers
       = stRunningNew.pendingTypecheckDiagnosticLatencyTimers) :=
  ⟨rfl, rfl, rfl,
   commitEdit_fast_noCancelAttempt stRunningNew editSameHash statusRunning true rfl rfl rfl⟩

/-- C1: with a slow path running, `commitEdit` attempts cancellation exactly
when the merged update (`update.copy().mergeOlder(pendingTypecheckUpdates)`,
reclassified with pending evictions) can take the fast path or the current
update cannot; when the attempt is made and succeeds, the returned update is
the merged update with `canceledSlowPath = true` (all cancellation-relevant
fields agree with the merged update, the slow-path branch additionally
populating only `updatedGS`), and the final `evictedFiles` is the prior
`evictedFiles` folded into `newlyEvictedFiles` keeping the older version of
each file. -/
theorem commitEdit_cancel_arbitration (st : IndexerState)
    (edit : SorbetWorkspaceEditParams) (status : EpochStatus) (co : Bool)
    (hrun : status.slowPathRunning = true)
    (hnd : (st.evictedFiles.map Prod.fst).Nodup) :
    ((commitEdit st edit status co).cancelAttempted
      = ((commitMerged st (commitPrepare st edit)).canTakeFastPath
          || !(commitPrepare st edit).update.canTakeFastPath)) ∧
    (((commitMerged st (commitPrepare st edit)).canTakeFastPath
          || !(commitPrepare st edit).update.canTakeFastPath) = true → co = true →
      (commitEdit st edit status co).update.canceledSlowPath = true ∧
      (commitEdit st edit status co).update.epoch
        = (commitMerged st (commitPrepare st edit)).epoch ∧
      (commitEdit st edit status co).update.editCount
        = (commitMerged st (commitPrepare st edit)).editCount ∧
      (commitEdit st edit status co).update.updatedFiles
        = (commitMerged st (commitPrepare st edit)).updatedFiles ∧
      (commitEdit st edit status co).update.updatedFileIndexes
        = (commitMerged st (commitPrepare st edit)).updatedFileIndexes ∧
      (commitEdit st edit status co).update.hasNewFiles
        = (commitMerged st (commitPrepare st edit)).hasNewFiles ∧
      (commitEdit st edit status co).update.canTakeFastPath
        = (commitMerged st (commitPrepare st edit)).canTakeFastPath ∧
      (∀ k, lookupEv (commitEdit st edit status co).state.evictedFiles k
        = firstSome (lookupEv st.evictedFiles k)
            (lookupEv (commitPrepare st edit).newlyEvicted k))) := by
  constructor
  · rw [commitEdit_attempted_def, commitChoose_attempted st (commitPrepare st edit) status co hrun]
  · intro hatt hco
    have hchoose := commitChoose_success st (commitPrepare st edit) status co hrun hatt hco
    have hupd : (commitEdit st edit status co).update
        = if (commitMerged st (commitPrepare st edit)).canTakeFastPath then
            { commitMerged st (commitPrepare st edit) with canceledSlowPath := true }
          else
            { { commitMerged st (commitPrepare st edit) with canceledSlowPath := true }
              with updatedGS := some (commitPrepare st edit).gs } := by
      rw [commitEdit_update_def, hchoose, commitFinish_update_eq, withCanceled_canTakeFastPath]
    have hev : (commitEdit st edit status co).state.evictedFiles
        = if (commitMerged st (commitPrepare st edit)).canTakeFastPath then
            mergeEvictedFiles st.evictedFiles
              (mergeEvictedFiles st.evictedFiles (commitPrepare st edit).newlyEvicted)
          else mergeEvictedFiles st.evictedFiles (commitPrepare st edit).newlyEvicted := by
      rw [commitEdit_state_def, hchoose, commitFinish_state_evicted, withCanceled_canTakeFastPath]
    by_cases hMf : (commitMerged st (commitPrepare st edit)).canTakeFastPath = true
    · rw [hupd, hev, if_pos hMf, if_pos hMf]
      refine ⟨rfl, rfl, rfl, rfl, rfl, rfl, rfl, ?_⟩
      intro k
      rw [lookupEv_mergeEvictedFiles st.evictedFiles hnd,
        lookupEv_mergeEvictedFiles st.evictedFiles hnd]
      cases h : lookupEv st.evictedFiles k <;> simp [firstSome, h]
    · rw [hupd, hev, if_neg hMf, if_neg hMf]
      refine ⟨rfl, rfl, rfl, rfl, rfl, rfl, rfl, ?_⟩
      intro k
      rw [lookupEv_mergeEvictedFiles st.evictedFiles hnd]

/-- C1 witness: with the concrete running-slow-path state and same-hash edit,
the arbitration condition is reported exactly. -/
theorem commitEdit_cancel_arbitration_witness :
    statusRunning.slowPathRunning = true ∧
    (stRunning.evictedFiles.map Prod.fst).Nodup ∧
    ((commitEdit stRunning editSameHash statusRunning true).cancelAttempted
      = ((commitMerged stRunning (commitPrepare stRunning editSameHash)).canTakeFastPath
          || !(commitPrepare stRunning editSameHash).update.canTakeFastPath)) :=
  ⟨rfl, by decide,
   (commitEdit_cancel_arbitration stRunning editSameHash statusRunning true rfl (by decide)).1⟩


theorem hashFiles_length (l : List File) : (hashFiles l).length = l.length := by
  unfold hashFiles
  split
  · rfl
  · simp

theorem applyEditFiles_frefs_length (files : List File) :
    ∀ s : ApplyState, (applyEditFiles s files).frefs.length = s.frefs.length + files.length := by
  induction files with
  | nil => intro s; simp [applyEditFiles]
  | cons f rest ih =>
    intro s
    unfold applyEditFiles
    cases h : s.gs.findFileByPath f.path with
    | some i =>
      rw [ih]
      simp only [List.length_append, List.length_cons, List.length_nil]
      omega
    | none =>
      rw [ih]
      simp only [List.length_append, List.length_cons, List.length_nil]
      omega

theorem insertSorted_length (x : Nat) (l : List Nat) :
    (insertSorted x l).length = l.length + 1 := by
  induction l with
  | nil => rfl
  | cons y rest ih =>
    unfold insertSorted
    split
    · rfl
    · simp [ih]

theorem sortNats_length (l : List Nat) : (sortNats l).length = l.length := by
  induction l with
  | nil => rfl
  | cons x rest ih =>
    unfold sortNats
    rw [insertSorted_length, ih]
    rfl

theorem pipelineIndex_length (gs : GlobalState) (frefs : List Nat) :
    (pipelineIndex gs frefs).length = frefs.length := by
  unfold pipelineIndex
  rw [List.length_map, sortNats_length]

theorem foldl_set_length (frefs : List Nat) (trees : List ParsedFile) :
    ∀ acc : List ParsedFile,
      (trees.foldl (fun acc t => acc.set (posOf frefs t.file) t) acc).length = acc.length := by
  induction trees with
  | nil => intro acc; rfl
  | cons t rest ih =>
    intro acc
    rw [List.foldl_cons, ih]
    simp

theorem reorderTrees_length (frefs : List Nat) (trees : List ParsedFile) :
    (reorderTrees frefs trees).length = trees.length := by
  unfold reorderTrees
  rw [foldl_set_length]
  exact List.length_replicate trees.length default

theorem commitPrepare_updatedFiles (st : IndexerState) (edit : SorbetWorkspaceEditParams) :
    (commitPrepare st edit).update.updatedFiles = hashFiles edit.updates := rfl

theorem commitPrepare_updatedFileIndexes (st : IndexerState) (edit : SorbetWorkspaceEditParams) :
    (commitPrepare st edit).update.updatedFileIndexes
      = reorderTrees (applyEditFiles { gs := st.initialGS } (hashFiles edit.updates)).frefs
          (pipelineIndex (commitPrepare st edit).gs
            (applyEditFiles { gs := st.initialGS } (hashFiles edit.updates)).frefs) := rfl

theorem commitPrepare_aligned (st : IndexerState) (edit : SorbetWorkspaceEditParams) :
    (commitPrepare st edit).update.updatedFiles.length
      = (commitPrepare st edit).update.updatedFileIndexes.length := by
  rw [commitPrepare_updatedFiles, commitPrepare_updatedFileIndexes, reorderTrees_length,
    pipelineIndex_length, applyEditFiles_frefs_length]
  simp

theorem mergeOlder_align (a b : LSPFileUpdates)
    (ha : a.updatedFiles.length = a.updatedFileIndexes.length) :
    (a.mergeOlder b).updatedFiles.length = (a.mergeOlder b).updatedFileIndexes.length := by
  simp only [LSPFileUpdates.mergeOlder]
  simp [ha]

theorem copy_updatedFiles (u : LSPFileUpdates) : u.copy.updatedFiles = u.updatedFiles := rfl

theorem copy_updatedFileIndexes (u : LSPFileUpdates) :
    u.copy.updatedFileIndexes = u.updatedFileIndexes := rfl

theorem commitMerged_updatedFiles (st : IndexerState) (p : Prep) :
    (commitMerged st p).updatedFiles
      = (p.update.copy.mergeOlder st.pendingTypecheckUpdates).updatedFiles := rfl

theorem commitMerged_updatedFileIndexes (st : IndexerState) (p : Prep) :
    (commitMerged st p).updatedFileIndexes
      = (p.update.copy.mergeOlder st.pendingTypecheckUpdates).updatedFileIndexes := rfl

theorem commitChoose_aligned (st : IndexerState) (p : Prep) (status : EpochStatus) (co : Bool)
    (hp : p.update.updatedFiles.length = p.update.updatedFileIndexes.length) :
    (commitChoose st p status co).update.updatedFiles.length
      = (commitChoose st p status co).update.updatedFileIndexes.length := by
  rcases commitChoose_update_cases st p status co with h | h <;> rw [h]
  · exact hp
  · show (commitMerged st p).updatedFiles.length = (commitMerged st p).updatedFileIndexes.length
    rw [commitMerged_updatedFiles, commitMerged_updatedFileIndexes]
    exact mergeOlder_align _ _ (by rw [copy_updatedFiles, copy_updatedFileIndexes]; exact hp)

theorem reserveFiles_errorQueue (paths : List Nat) :
    ∀ gs : GlobalState, (reserveFiles gs paths).1.errorQueue = gs.errorQueue := by
  induction paths with
  | nil => intro gs; rfl
  | cons p rest ih =>
    intro gs
    unfold reserveFiles
    cases h : gs.findFileByPath p with
    | some i => simpa using ih gs
    | none => simpa using ih { gs with files := gs.files ++ [{ path := p }] }

theorem findPathIdx_lt_length (l : List Nat) (p : Nat) :
    ∀ i, findPathIdx l p = some i → i < l.length := by
  induction l with
  | nil => intro i h; simp [findPathIdx] at h
  | cons q rest ih =>
    intro i h
    unfold findPathIdx at h
    split at h
    · cases h
      simp
    · cases hr : findPathIdx rest p with
      | none => rw [hr] at h; cases h
      | some j =>
        rw [hr] at h
        simp only [Option.map_some'] at h
        cases h
        have := ih j hr
        simp only [List.length_cons]
        omega

theorem reserveFiles_files_mono (paths : List Nat) :
    ∀ gs : GlobalState, gs.files.length ≤ (reserveFiles gs paths).1.files.length := by
  induction paths with
  | nil => intro gs; exact Nat.le_refl _
  | cons p rest ih =>
    intro gs
    unfold reserveFiles
    cases h : gs.findFileByPath p with
    | some i => simpa using ih gs
    | none =>
      have h2 := ih { gs with files := gs.files ++ [{ path := p }] }
      simp only [List.length_append, List.length_cons, List.length_nil] at h2
      simp only []
      omega

theorem reserveFiles_frefs_lt (paths : List Nat) :
    ∀ gs : GlobalState, ∀ i ∈ (reserveFiles gs paths).2,
      i < (reserveFiles gs paths).1.files.length := by
  induction paths with
  | nil => intro gs i h; simp [reserveFiles] at h
  | cons p rest ih =>
    intro gs i h
    unfold reserveFiles at h ⊢
    revert h
    cases hf : gs.findFileByPath p with
    | some j =>
      intro h
      simp only [List.mem_cons] at h
      rcases h with h | h
      · have h1 : j < gs.files.length := by
          have h2 := findPathIdx_lt_length (gs.files.map File.path) p j hf
          simpa using h2
        have h3 := reserveFiles_files_mono rest gs
        show i < (reserveFiles gs rest).1.files.length
        omega
      · exact ih gs i h
    | none =>
      intro h
      simp only [List.mem_cons] at h
      rcases h with h | h
      · have h1 := reserveFiles_files_mono rest { gs with files := gs.files ++ [{ path := p }] }
        simp only [List.length_append, List.length_cons, List.length_nil] at h1
        show i < (reserveFiles { gs with files := gs.files ++ [{ path := p }] } rest).1.files.length
        omega
      · exact ih _ i h

theorem insertSorted_mem (x q : Nat) (l : List Nat) (h : q ∈ insertSorted x l) :
    q = x ∨ q ∈ l := by
  induction l with
  | nil => simpa [insertSorted] using h
  | cons y rest ih =>
    unfold insertSorted at h
    split at h
    · simpa using h
    · simp only [List.mem_cons] at h
      rcases h with h | h
      · exact Or.inr (by simp [h])
      · rcases ih h with h | h
        · exact Or.inl h
        · exact Or.inr (by simp [h])

theorem sortNats_mem (q : Nat) (l : List Nat) (h : q ∈ sortNats l) : q ∈ l := by
  induction l with
  | nil => simp [sortNats] at h
  | cons x rest ih =>
    unfold sortNats at h
    rcases insertSorted_mem x q (sortNats rest) h with h | h
    · simp [h]
    · exact List.mem_cons_of_mem x (ih h)

theorem densePlace_le (N : Nat) (trees : List ParsedFile)
    (hb : ∀ t ∈ trees, t.file < N) : (densePlace trees).length ≤ N := by
  have aux : ∀ (rest : List ParsedFile) (acc : List ParsedFile), acc.length ≤ N →
      (∀ t ∈ rest, t.file < N) →
      (rest.foldl
        (fun acc t =>
          let acc2 :=
            if acc.length ≤ t.file then
              acc ++ List.replicate (t.file + 1 - acc.length) default
            else acc
          acc2.set t.file t) acc).length ≤ N := by
    intro rest
    induction rest with
    | nil => intro acc h _; exact h
    | cons t rest2 ih =>
      intro acc hacc hb2
      rw [List.foldl_cons]
      apply ih
      · simp only [List.length_set]
        split
        · rw [List.length_append, List.length_replicate]
          have := hb2 t (by simp)
          omega
        · exact hacc
      · intro t' ht'
        exact hb2 t' (List.mem_cons_of_mem t ht')
  exact aux trees [] (Nat.zero_le N) hb

theorem initIndexed_length (st : IndexerState) :
    (initIndexed st).length = (initHashedGS st).files.length := by
  have hgs : (initHashedGS st).files.length = (initReserved st).1.files.length := by
    show (hashFiles (initReserved st).1.files).length = (initReserved st).1.files.length
    exact hashFiles_length _
  have hb : ∀ t ∈ pipelineIndex (initReserved st).1 (initReserved st).2,
      t.file < (initReserved st).1.files.length := by
    intro t ht
    unfold pipelineIndex at ht
    rcases List.mem_map.1 ht with ⟨i, hi, rfl⟩
    exact reserveFiles_frefs_lt st.config.inputFileNames (initGS1 st) i
      (sortNats_mem i (initReserved st).2 hi)
  have hdp := densePlace_le (initReserved st).1.files.length
    (pipelineIndex (initReserved st).1 (initReserved st).2) hb
  simp only [initIndexed]
  rw [hgs]
  split
  · rw [List.length_append, List.length_replicate]
    omega
  · omega

theorem indexerInit_eq (st : IndexerState) (u : LSPFileUpdates)
    (h : st.initialized = false) :
    indexerInit st u = Except.ok (initState st, initOut st u) := by
  have hne : ¬ st.initialized = true := by rw [h]; exact Bool.false_ne_true
  simp only [indexerInit]
  rw [if_neg hne]
  rfl

/-- C6 counterexample: on a fresh indexer with one configured input file,
`initialize` produces an update with zero `updatedFiles` but one
`updatedFileIndexes` entry, violating the claimed invariant for the output of
`initialize`. -/
theorem initialize_size_mismatch :
    freshInitUpdate.updatedFiles.length = 0 ∧
    freshInitUpdate.updatedFileIndexes.length = 1 ∧
    ¬ (freshInitUpdate.updatedFiles.length = freshInitUpdate.updatedFileIndexes.length) := by
  refine ⟨rfl, rfl, ?_⟩
  decide


/-- C9: `initialize` succeeds on a not-yet-initialized indexer, producing an
update with `epoch = 0`, `canTakeFastPath = false`, a dense tree vector with
one slot per `GlobalState` file, and a deep copy of the fully hashed
`GlobalState` as `updatedGS`, while restoring the original error queue on the
live state before returning; a second call on the resulting indexer raises. -/
theorem initialize_once (st : IndexerState) (u : LSPFileUpdates)
    (h : st.initialized = false) :
    indexerInit st u = Except.ok (initState st, initOut st u) ∧
    (initOut st u).epoch = 0 ∧
    (initOut st u).canTakeFastPath = false ∧
    (initOut st u).updatedFileIndexes.length = (initState st).initialGS.files.length ∧
    (initOut st u).updatedGS.map GlobalState.files = some (initState st).initialGS.files ∧
    (initState st).initialGS.errorQueue = st.initialGS.errorQueue ∧
    (∀ v, indexerInit (initState st) v = Except.error alreadyInitMsg) := by
  refine ⟨indexerInit_eq st u h, rfl, rfl, ?_, rfl, rfl, ?_⟩
  · show (initIndexed st).length = (initHashedGS st).files.length
    exact initIndexed_length st
  · intro v
    simp only [indexerInit]
    rw [if_pos (show (initState st).initialized = true from rfl)]

/-- C9 witness: the fresh test indexer initializes once and refuses a second
initialization. -/
theorem initialize_once_witness :
    stFresh.initialized = false ∧
    indexerInit stFresh {} = Except.ok (initState stFresh, initOut stFresh {}) ∧
    (initOut stFresh {}).epoch = 0 ∧
    (∀ v, indexerInit (initState stFresh) v = Except.error alreadyInitMsg) :=
  ⟨rfl, (initialize_once stFresh {} rfl).1, (initialize_once stFresh {} rfl).2.1,
   (initialize_once stFresh {} rfl).2.2.2.2.2.2⟩


theorem nthSetNe {α : Type} (l : List α) :
    ∀ (j : Nat) (a : α) (i : Nat), i ≠ j → (l.set j a).get? i = l.get? i := by
  induction l with
  | nil => intro j a i _; rfl
  | cons x rest ih =>
    intro j a i h
    cases j with
    | zero =>
      cases i with
      | zero => exact absurd rfl h
      | succ i2 => rfl
    | succ j2 =>
      cases i with
      | zero => rfl
      | succ i2 =>
        show (rest.set j2 a).get? i2 = rest.get? i2
        exact ih j2 a i2 (fun he => h (by rw [he]))

theorem nthSetSelf {α : Type} (l : List α) :
    ∀ (i : Nat) (a : α), i < l.length → (l.set i a).get? i = some a := by
  induction l with
  | nil => intro i a h; exact absurd h (Nat.not_lt_zero i)
  | cons x rest ih =>
    intro i a h
    cases i with
    | zero => rfl
    | succ i2 =>
      show (rest.set i2 a).get? i2 = some a
      exact ih i2 a (Nat.lt_of_succ_lt_succ h)

theorem nthAppendLeft {α : Type} (l l2 : List α) :
    ∀ i : Nat, i < l.length → (l ++ l2).get? i = l.get? i := by
  induction l with
  | nil => intro i h; exact absurd h (Nat.not_lt_zero i)
  | cons x rest ih =>
    intro i h
    cases i with
    | zero => rfl
    | succ i2 =>
      show (rest ++ l2).get? i2 = rest.get? i2
      exact ih i2 (Nat.lt_of_succ_lt_succ h)

theorem nthConcatLength {α : Type} (l : List α) (a : α) :
    (l ++ [a]).get? l.length = some a := by
  induction l with
  | nil => rfl
  | cons x rest ih => exact ih

theorem setSame {α : Type} (l : List α) :
    ∀ (i : Nat) (a : α), l.get? i = some a → l.set i a = l := by
  induction l with
  | nil => intro i a h; exact Option.noConfusion h
  | cons x rest ih =>
    intro i a h
    cases i with
    | zero =>
      have h2 : x = a := by injection h
      show a :: rest = x :: rest
      rw [h2]
    | succ i2 =>
      show x :: rest.set i2 a = x :: rest
      rw [ih i2 a h]

theorem getDNth {α : Type} (l : List α) :
    ∀ (i : Nat) (d : α), l.getD i d = (l.get? i).getD d := by
  induction l with
  | nil => intro i d; rfl
  | cons x rest ih =>
    intro i d
    cases i with
    | zero => rfl
    | succ i2 => exact ih i2 d

theorem mapSet {α β : Type} (g : α → β) (l : List α) :
    ∀ (i : Nat) (a : α), (l.set i a).map g = (l.map g).set i (g a) := by
  induction l with
  | nil => intro i a; rfl
  | cons x rest ih =>
    intro i a
    cases i with
    | zero => rfl
    | succ i2 =>
      show g x :: (rest.set i2 a).map g = g x :: ((rest.map g).set i2 (g a))
      rw [ih]

theorem mapCongrMem {α β : Type} (f g : α → β) (l : List α)
    (h : ∀ a ∈ l, f a = g a) : l.map f = l.map g := by
  induction l with
  | nil => rfl
  | cons x rest ih =>
    simp only [List.map_cons]
    rw [h x (by simp), ih (fun a ha => h a (List.mem_cons_of_mem x ha))]

theorem findPathIdx_get? (l : List Nat) (p : Nat) :
    ∀ i, findPathIdx l p = some i → l.get? i = some p := by
  induction l with
  | nil => intro i h; exact Option.noConfusion h
  | cons q rest ih =>
    intro i h
    unfold findPathIdx at h
    split at h
    · cases h
      rename_i hqp
      simp [hqp]
    · cases hr : findPathIdx rest p with
      | none => rw [hr] at h; exact Option.noConfusion h
      | some j =>
        rw [hr] at h
        simp only [Option.map_some'] at h
        cases h
        show rest.get? j = some p
        exact ih j hr

theorem findPathIdx_append_some (l l2 : List Nat) (p : Nat) :
    ∀ i, findPathIdx l p = some i → findPathIdx (l ++ l2) p = some i := by
  induction l with
  | nil => intro i h; exact Option.noConfusion h
  | cons q rest ih =>
    intro i h
    rw [List.cons_append]
    unfold findPathIdx at h ⊢
    split at h
    · rename_i hqp
      rw [if_pos hqp]
      exact h
    · rename_i hqp
      rw [if_neg hqp]
      cases hr : findPathIdx rest p with
      | none => rw [hr] at h; exact Option.noConfusion h
      | some j =>
        rw [hr] at h
        rw [ih j hr]
        exact h

theorem findPathIdx_append_none_ne (p q2 : Nat) (hne : q2 ≠ p) :
    ∀ l : List Nat, findPathIdx l p = none → findPathIdx (l ++ [q2]) p = none := by
  intro l
  induction l with
  | nil =>
    intro _
    show findPathIdx [q2] p = none
    unfold findPathIdx
    rw [if_neg hne]
    rfl
  | cons x rest ih =>
    intro h
    rw [List.cons_append]
    unfold findPathIdx at h ⊢
    split at h
    · exact Option.noConfusion h
    · rename_i hxp
      rw [if_neg hxp]
      cases hr : findPathIdx rest p with
      | some j => rw [hr] at h; simp at h
      | none =>
        rw [ih hr]
        rfl

theorem findPathIdx_append_self (p : Nat) :
    ∀ l : List Nat, findPathIdx l p = none → findPathIdx (l ++ [p]) p = some l.length := by
  intro l
  induction l with
  | nil =>
    intro _
    show findPathIdx [p] p = some 0
    unfold findPathIdx
    rw [if_pos rfl]
  | cons x rest ih =>
    intro h
    rw [List.cons_append]
    unfold findPathIdx at h ⊢
    split at h
    · exact Option.noConfusion h
    · rename_i hxp
      rw [if_neg hxp]
      cases hr : findPathIdx rest p with
      | some j => rw [hr] at h; simp at h
      | none =>
        rw [ih hr]
        rfl

theorem replaceFile_paths (gs : GlobalState) (j : Nat) (f : File)
    (h : (gs.files.map File.path).get? j = some f.path) :
    (gs.replaceFile j f).files.map File.path = gs.files.map File.path := by
  show (gs.files.set j f).map File.path = gs.files.map File.path
  rw [mapSet]
  exact setSame _ j f.path h

theorem applyEditFiles_cons_some (s : ApplyState) (f0 : File) (rest : List File) (j : Nat)
    (h : s.gs.findFileByPath f0.path = some j) :
    applyEditFiles s (f0 :: rest)
      = applyEditFiles
          { gs := s.gs.replaceFile j f0
            newlyEvicted := insertEv s.newlyEvicted j (s.gs.files.getD j default)
            hasNewFiles := s.hasNewFiles
            frefs := s.frefs ++ [j] } rest := by
  simp only [applyEditFiles, h]

theorem applyEditFiles_cons_none (s : ApplyState) (f0 : File) (rest : List File)
    (h : s.gs.findFileByPath f0.path = none) :
    applyEditFiles s (f0 :: rest)
      = applyEditFiles
          { gs := { s.gs with files := s.gs.files ++
              [{ f0 with strictLevel := decideStrictLevel s.gs s.gs.files.length }] }
            newlyEvicted := s.newlyEvicted
            hasNewFiles := true
            frefs := s.frefs ++ [s.gs.files.length] } rest := by
  simp only [applyEditFiles, h]


theorem applyEditFiles_preserve (files : List File) :
    ∀ (s : ApplyState) (q i : Nat),
      q ∉ files.map File.path →
      findPathIdx (s.gs.files.map File.path) q = some i →
      findPathIdx ((applyEditFiles s files).gs.files.map File.path) q = some i ∧
      (applyEditFiles s files).gs.files.get? i = s.gs.files.get? i ∧
      lookupEv (applyEditFiles s files).newlyEvicted i = lookupEv s.newlyEvicted i := by
  induction files with
  | nil => intro s q i _ hf; exact ⟨hf, rfl, rfl⟩
  | cons f0 rest ih =>
    intro s q i hq hf
    simp only [List.map_cons, List.mem_cons, not_or] at hq
    obtain ⟨hq0, hqrest⟩ := hq
    cases hmatch : s.gs.findFileByPath f0.path with
    | some j =>
      rw [applyEditFiles_cons_some s f0 rest j hmatch]
      have hjpath : (s.gs.files.map File.path).get? j = some f0.path :=
        findPathIdx_get? _ _ j hmatch
      have hipath : (s.gs.files.map File.path).get? i = some q :=
        findPathIdx_get? _ _ i hf
      have hij : i ≠ j := by
        intro he
        rw [he, hjpath] at hipath
        injection hipath with h2
        exact hq0 h2.symm
      have hpaths := replaceFile_paths s.gs j f0 hjpath
      have hf1 : findPathIdx ((s.gs.replaceFile j f0).files.map File.path) q = some i := by
        rw [hpaths]; exact hf
      obtain ⟨ha, hb, hc⟩ := ih
        { gs := s.gs.replaceFile j f0
          newlyEvicted := insertEv s.newlyEvicted j (s.gs.files.getD j default)
          hasNewFiles := s.hasNewFiles
          frefs := s.frefs ++ [j] } q i hqrest hf1
      refine ⟨ha, ?_, ?_⟩
      · rw [hb]
        show (s.gs.files.set j f0).get? i = s.gs.files.get? i
        exact nthSetNe _ j f0 i hij
      · rw [hc]
        show lookupEv (insertEv s.newlyEvicted j (s.gs.files.getD j default)) i
          = lookupEv s.newlyEvicted i
        rw [lookupEv_insertEv]
        exact if_neg hij
    | none =>
      rw [applyEditFiles_cons_none s f0 rest hmatch]
      have hlen : i < (s.gs.files.map File.path).length := findPathIdx_lt_length _ _ i hf
      have hf1 : findPathIdx
          (({ s.gs with files := s.gs.files ++
              [{ f0 with strictLevel := decideStrictLevel s.gs s.gs.files.length }] }
            : GlobalState).files.map File.path) q = some i := by
        show findPathIdx ((s.gs.files
          ++ [{ f0 with strictLevel := decideStrictLevel s.gs s.gs.files.length }]).map
            File.path) q = some i
        rw [List.map_append]
        exact findPathIdx_append_some _ _ q i hf
      obtain ⟨ha, hb, hc⟩ := ih
        { gs := { s.gs with files := s.gs.files ++
            [{ f0 with strictLevel := decideStrictLevel s.gs s.gs.files.length }] }
          newlyEvicted := s.newlyEvicted
          hasNewFiles := true
          frefs := s.frefs ++ [s.gs.files.length] } q i hqrest hf1
      refine ⟨ha, ?_, hc⟩
      rw [hb]
      show (s.gs.files
        ++ [{ f0 with strictLevel := decideStrictLevel s.gs s.gs.files.length }]).get? i
        = s.gs.files.get? i
      exact nthAppendLeft _ _ i (by simpa using hlen)

theorem applyEditFiles_installs (files : List File) :
    ∀ s : ApplyState, (files.map File.path).Nodup →
      ∀ f ∈ files, ∃ i,
        findPathIdx ((applyEditFiles s files).gs.files.map File.path) f.path = some i ∧
        ∃ g, (applyEditFiles s files).gs.files.get? i = some g ∧
          g.path = f.path ∧ g.contents = f.contents ∧ g.hash = f.hash := by
  induction files with
  | nil => intro s _ f hf; cases hf
  | cons f0 rest ih =>
    intro s hnd f hf
    simp only [List.map_cons, List.nodup_cons] at hnd
    obtain ⟨hnotin, hndrest⟩ := hnd
    rcases List.mem_cons.1 hf with heq | hfrest
    · subst heq
      cases hmatch : s.gs.findFileByPath f.path with
      | some j =>
        rw [applyEditFiles_cons_some s f rest j hmatch]
        have hjpath : (s.gs.files.map File.path).get? j = some f.path :=
          findPathIdx_get? _ _ j hmatch
        have hjlen : j < s.gs.files.length := by
          have h2 := findPathIdx_lt_length _ _ j hmatch
          simpa using h2
        have hpaths := replaceFile_paths s.gs j f hjpath
        have hfind1 : findPathIdx ((s.gs.replaceFile j f).files.map File.path) f.path
            = some j := by
          rw [hpaths]; exact hmatch
        obtain ⟨ha, hb, -⟩ := applyEditFiles_preserve rest
          { gs := s.gs.replaceFile j f
            newlyEvicted := insertEv s.newlyEvicted j (s.gs.files.getD j default)
            hasNewFiles := s.hasNewFiles
            frefs := s.frefs ++ [j] } f.path j hnotin hfind1
        refine ⟨j, ha, f, ?_, rfl, rfl, rfl⟩
        rw [hb]
        show (s.gs.files.set j f).get? j = some f
        exact nthSetSelf _ j f hjlen
      | none =>
        rw [applyEditFiles_cons_none s f rest hmatch]
        have hfind1 : findPathIdx
            (({ s.gs with files := s.gs.files ++
                [{ f with strictLevel := decideStrictLevel s.gs s.gs.files.length }] }
              : GlobalState).files.map File.path) f.path = some s.gs.files.length := by
          show findPathIdx ((s.gs.files
            ++ [{ f with strictLevel := decideStrictLevel s.gs s.gs.files.length }]).map
              File.path) f.path = some s.gs.files.length
          rw [List.map_append]
          have h3 := findPathIdx_append_self f.path (s.gs.files.map File.path) hmatch
          simpa using h3
        obtain ⟨ha, hb, -⟩ := applyEditFiles_preserve rest
          { gs := { s.gs with files := s.gs.files ++
              [{ f with strictLevel := decideStrictLevel s.gs s.gs.files.length }] }
            newlyEvicted := s.newlyEvicted
            hasNewFiles := true
            frefs := s.frefs ++ [s.gs.files.length] } f.path s.gs.files.length hnotin hfind1
        refine ⟨s.gs.files.length,
          ha, { f with strictLevel := decideStrictLevel s.gs s.gs.files.length }, ?_,
          rfl, rfl, rfl⟩
        rw [hb]
        show (s.gs.files
          ++ [{ f with strictLevel := decideStrictLevel s.gs s.gs.files.length }]).get?
            s.gs.files.length
          = some { f with strictLevel := decideStrictLevel s.gs s.gs.files.length }
        exact nthConcatLength _ _
    · cases hmatch : s.gs.findFileByPath f0.path with
      | some j =>
        rw [applyEditFiles_cons_some s f0 rest j hmatch]
        exact ih _ hndrest f hfrest
      | none =>
        rw [applyEditFiles_cons_none s f0 rest hmatch]
        exact ih _ hndrest f hfrest

theorem applyEditFiles_hasNew_mono (files : List File) :
    ∀ s : ApplyState, s.hasNewFiles = true → (applyEditFiles s files).hasNewFiles = true := by
  induction files with
  | nil => intro s h; exact h
  | cons f0 rest ih =>
    intro s h
    cases hmatch : s.gs.findFileByPath f0.path with
    | some j =>
      rw [applyEditFiles_cons_some s f0 rest j hmatch]
      exact ih _ h
    | none =>
      rw [applyEditFiles_cons_none s f0 rest hmatch]
      exact ih _ rfl

theorem applyEditFiles_new (files : List File) :
    ∀ (s : ApplyState) (f : File), (files.map File.path).Nodup → f ∈ files →
      findPathIdx (s.gs.files.map File.path) f.path = none →
      (applyEditFiles s files).hasNewFiles = true := by
  induction files with
  | nil => intro s f _ hf _; cases hf
  | cons f0 rest ih =>
    intro s f hnd hf hnone
    simp only [List.map_cons, List.nodup_cons] at hnd
    obtain ⟨hnotin, hndrest⟩ := hnd
    rcases List.mem_cons.1 hf with heq | hfrest
    · subst heq
      rw [applyEditFiles_cons_none s f rest hnone]
      exact applyEditFiles_hasNew_mono rest _ rfl
    · have hne : f0.path ≠ f.path := by
        intro he
        exact hnotin (he ▸ List.mem_map_of_mem File.path hfrest)
      cases hmatch : s.gs.findFileByPath f0.path with
      | some j =>
        rw [applyEditFiles_cons_some s f0 rest j hmatch]
        have hjpath : (s.gs.files.map File.path).get? j = some f0.path :=
          findPathIdx_get? _ _ j hmatch
        have hpaths := replaceFile_paths s.gs j f0 hjpath
        exact ih _ f hndrest hfrest (by rw [show ((s.gs.replaceFile j f0).files.map File.path)
          = s.gs.files.map File.path from hpaths]; exact hnone)
      | none =>
        rw [applyEditFiles_cons_none s f0 rest hmatch]
        refine ih _ f hndrest hfrest ?_
        show findPathIdx ((s.gs.files
          ++ [{ f0 with strictLevel := decideStrictLevel s.gs s.gs.files.length }]).map
            File.path) f.path = none
        rw [List.map_append]
        exact findPathIdx_append_none_ne f.path f0.path hne _ hnone

theorem applyEditFiles_evicts (files : List File) :
    ∀ (s : ApplyState) (f : File) (i : Nat), (files.map File.path).Nodup → f ∈ files →
      findPathIdx (s.gs.files.map File.path) f.path = some i →
      lookupEv (applyEditFiles s files).newlyEvicted i
        = some (s.gs.files.getD i default) := by
  induction files with
  | nil => intro s f i _ hf _; cases hf
  | cons f0 rest ih =>
    intro s f i hnd hf hfind
    simp only [List.map_cons, List.nodup_cons] at hnd
    obtain ⟨hnotin, hndrest⟩ := hnd
    rcases List.mem_cons.1 hf with heq | hfrest
    · subst heq
      rw [applyEditFiles_cons_some s f rest i hfind]
      have hjpath : (s.gs.files.map File.path).get? i = some f.path :=
        findPathIdx_get? _ _ i hfind
      have hpaths := replaceFile_paths s.gs i f hjpath
      have hfind1 : findPathIdx ((s.gs.replaceFile i f).files.map File.path) f.path
          = some i := by
        rw [hpaths]; exact hfind
      obtain ⟨-, -, hc⟩ := applyEditFiles_preserve rest
        { gs := s.gs.replaceFile i f
          newlyEvicted := insertEv s.newlyEvicted i (s.gs.files.getD i default)
          hasNewFiles := s.hasNewFiles
          frefs := s.frefs ++ [i] } f.path i hnotin hfind1
      rw [hc]
      show lookupEv (insertEv s.newlyEvicted i (s.gs.files.getD i default)) i
        = some (s.gs.files.getD i default)
      rw [lookupEv_insertEv]
      exact if_pos rfl
    · have hne : f0.path ≠ f.path := by
        intro he
        exact hnotin (he ▸ List.mem_map_of_mem File.path hfrest)
      have hipath : (s.gs.files.map File.path).get? i = some f.path :=
        findPathIdx_get? _ _ i hfind
      cases hmatch : s.gs.findFileByPath f0.path with
      | some j =>
        rw [applyEditFiles_cons_some s f0 rest j hmatch]
        have hjpath : (s.gs.files.map File.path).get? j = some f0.path :=
          findPathIdx_get? _ _ j hmatch
        have hij : i ≠ j := by
          intro he
          rw [he, hjpath] at hipath
          injection hipath with h2
          exact hne h2
        have hpaths := replaceFile_paths s.gs j f0 hjpath
        have hfind1 : findPathIdx ((s.gs.replaceFile j f0).files.map File.path) f.path
            = some i := by
          rw [hpaths]; exact hfind
        have hval : (s.gs.replaceFile j f0).files.getD i default
            = s.gs.files.getD i default := by
          show (s.gs.files.set j f0).getD i default = s.gs.files.getD i default
          rw [getDNth, getDNth, nthSetNe _ j f0 i hij]
        rw [ih
          { gs := s.gs.replaceFile j f0,
            newlyEvicted := insertEv s.newlyEvicted j (s.gs.files.getD j default),
            hasNewFiles := s.hasNewFiles,
            frefs := s.frefs ++ [j] } f i hndrest hfrest hfind1]
        exact congrArg some hval
      | none =>
        rw [applyEditFiles_cons_none s f0 rest hmatch]
        have hlen : i < s.gs.files.length := by
          have h2 := findPathIdx_lt_length _ _ i hfind
          simpa using h2
        have hfind1 : findPathIdx
            (({ s.gs with files := s.gs.files ++
                [{ f0 with strictLevel := decideStrictLevel s.gs s.gs.files.length }] }
              : GlobalState).files.map File.path) f.path = some i := by
          show findPathIdx ((s.gs.files
            ++ [{ f0 with strictLevel := decideStrictLevel s.gs s.gs.files.length }]).map
              File.path) f.path = some i
          rw [List.map_append]
          exact findPathIdx_append_some _ _ f.path i hfind
        have hval : (s.gs.files
            ++ [{ f0 with strictLevel := decideStrictLevel s.gs s.gs.files.length }]).getD
              i default
            = s.gs.files.getD i default := by
          rw [getDNth, getDNth, nthAppendLeft _ _ i hlen]
        rw [ih
          { gs := { s.gs with files := s.gs.files ++
              [{ f0 with strictLevel := decideStrictLevel s.gs s.gs.files.length }] },
            newlyEvicted := s.newlyEvicted,
            hasNewFiles := true,
            frefs := s.frefs ++ [s.gs.files.length] } f i hndrest hfrest hfind1]
        exact congrArg some hval


theorem ensureHash_path (f : File) : (ensureHash f).path = f.path := by
  unfold ensureHash
  split <;> rfl

theorem ensureHash_contents (f : File) : (ensureHash f).contents = f.contents := by
  unfold ensureHash
  split <;> rfl

theorem map_ensureHash_id (l : List File)
    (h : l.all (fun f => f.hash.isSome) = true) : l.map ensureHash = l := by
  induction l with
  | nil => rfl
  | cons x rest ih =>
    simp only [List.all_cons, Bool.and_eq_true] at h
    simp only [List.map_cons]
    rw [ensureHash_of_isSome x h.1, ih h.2]

theorem hashFiles_eq (l : List File) : hashFiles l = l.map ensureHash := by
  unfold hashFiles
  split
  · next h => exact (map_ensureHash_id l h).symm
  · rfl

theorem hashFiles_paths (l : List File) :
    (hashFiles l).map File.path = l.map File.path := by
  rw [hashFiles_eq, List.map_map]
  exact mapCongrMem _ _ l (fun a _ => ensureHash_path a)

theorem commitPrepare_newlyEvicted (st : IndexerState) (edit : SorbetWorkspaceEditParams) :
    (commitPrepare st edit).newlyEvicted
      = (applyEditFiles { gs := st.initialGS } (hashFiles edit.updates)).newlyEvicted := rfl

theorem commitPrepare_hasNewFiles (st : IndexerState) (edit : SorbetWorkspaceEditParams) :
    (commitPrepare st edit).update.hasNewFiles
      = (applyEditFiles { gs := st.initialGS } (hashFiles edit.updates)).hasNewFiles := rfl

theorem commitMerged_hasNewFiles (st : IndexerState) (p : Prep) :
    (commitMerged st p).hasNewFiles
      = (p.update.hasNewFiles || st.pendingTypecheckUpdates.hasNewFiles) := rfl

/-- C10: `commitEdit` installs every file of the edit into the live
`GlobalState` before the cancellation arbitration and the mutation persists on
return, whatever the fast/slow classification and cancellation outcome: the
final `GlobalState` file table is exactly the one produced by the mutation
loop (independent of the epoch status and race outcome), each edit file is
found at its path with the edit's content and hash, a path absent from the
pre-edit `GlobalState` sets `hasNewFiles` on the returned update, and a
replaced path has its prior version recorded in `newlyEvictedFiles` and still
present in the final `evictedFiles` rollback map. -/
theorem commitEdit_installs_edit (st : IndexerState) (edit : SorbetWorkspaceEditParams)
    (status : EpochStatus) (co : Bool)
    (hnd : (edit.updates.map File.path).Nodup) :
    ((commitEdit st edit status co).state.initialGS.files
      = (applyEditFiles { gs := st.initialGS } (hashFiles edit.updates)).gs.files) ∧
    (∀ f ∈ edit.updates, ∃ i,
      (commitEdit st edit status co).state.initialGS.findFileByPath f.path = some i ∧
      ∃ g, (commitEdit st edit status co).state.initialGS.files.get? i = some g ∧
        g.path = f.path ∧ g.contents = f.contents ∧ g.hash = (ensureHash f).hash) ∧
    (∀ f ∈ edit.updates, st.initialGS.findFileByPath f.path = none →
      (commitEdit st edit status co).update.hasNewFiles = true) ∧
    (∀ f ∈ edit.updates, ∀ i, st.initialGS.findFileByPath f.path = some i →
      lookupEv (commitPrepare st edit).newlyEvicted i
        = some (st.initialGS.files.getD i default) ∧
      (lookupEv (commitEdit st edit status co).state.evictedFiles i).isSome = true) := by
  have hgs : (commitEdit st edit status co).state.initialGS = (commitPrepare st edit).gs := by
    rw [commitEdit_state_def, commitFinish_state_initialGS]
  have hgsf : (commitEdit st edit status co).state.initialGS.files
      = (applyEditFiles { gs := st.initialGS } (hashFiles edit.updates)).gs.files := by
    rw [hgs]
    rfl
  have hndh : ((hashFiles edit.updates).map File.path).Nodup := by
    rw [hashFiles_paths]
    exact hnd
  refine ⟨hgsf, ?_, ?_, ?_⟩
  · intro f hf
    have hmem : ensureHash f ∈ hashFiles edit.updates := by
      rw [hashFiles_eq]
      exact List.mem_map_of_mem ensureHash hf
    obtain ⟨i, ha, g, hg, hp, hc, hh⟩ :=
      applyEditFiles_installs (hashFiles edit.updates) { gs := st.initialGS } hndh
        (ensureHash f) hmem
    refine ⟨i, ?_, g, ?_, ?_, ?_, hh⟩
    · show findPathIdx ((commitEdit st edit status co).state.initialGS.files.map File.path)
        f.path = some i
      rw [hgsf, show f.path = (ensureHash f).path from (ensureHash_path f).symm]
      exact ha
    · rw [hgsf]
      exact hg
    · rw [hp, ensureHash_path]
    · rw [hc, ensureHash_contents]
  · intro f hf hnone
    have hmem : ensureHash f ∈ hashFiles edit.updates := by
      rw [hashFiles_eq]
      exact List.mem_map_of_mem ensureHash hf
    have hnone2 : findPathIdx
        (({ gs := st.initialGS } : ApplyState).gs.files.map File.path)
        (ensureHash f).path = none := by
      rw [ensureHash_path]
      exact hnone
    have hA := applyEditFiles_new (hashFiles edit.updates) { gs := st.initialGS }
      (ensureHash f) hndh hmem hnone2
    have hprep : (commitPrepare st edit).update.hasNewFiles = true := by
      rw [commitPrepare_hasNewFiles]
      exact hA
    have hch : (commitChoose st (commitPrepare st edit) status co).update.hasNewFiles
        = true := by
      rcases commitChoose_update_cases st (commitPrepare st edit) status co with h | h <;>
        rw [h]
      · exact hprep
      · show (commitMerged st (commitPrepare st edit)).hasNewFiles = true
        rw [commitMerged_hasNewFiles, hprep]
        rfl
    rw [commitEdit_update_def, commitFinish_update_eq]
    split
    · exact hch
    · exact hch
  · intro f hf i hfind
    have hmem : ensureHash f ∈ hashFiles edit.updates := by
      rw [hashFiles_eq]
      exact List.mem_map_of_mem ensureHash hf
    have hfind2 : findPathIdx
        (({ gs := st.initialGS } : ApplyState).gs.files.map File.path)
        (ensureHash f).path = some i := by
      rw [ensureHash_path]
      exact hfind
    have hev := applyEditFiles_evicts (hashFiles edit.updates) { gs := st.initialGS }
      (ensureHash f) i hndh hmem hfind2
    have hbase : lookupEv (commitPrepare st edit).newlyEvicted i
        = some (st.initialGS.files.getD i default) := by
      rw [commitPrepare_newlyEvicted]
      exact hev
    refine ⟨hbase, ?_⟩
    have hbs : (lookupEv (commitPrepare st edit).newlyEvicted i).isSome = true := by
      rw [hbase]
      rfl
    have hcs : (lookupEv
        (commitChoose st (commitPrepare st edit) status co).newlyEvicted i).isSome = true := by
      rcases commitChoose_newlyEvicted_cases st (commitPrepare st edit) status co with h | h <;>
        rw [h]
      · exact hbs
      · exact lookupEv_isSome_mergeEvictedFiles _ _ _ hbs
    rw [commitEdit_state_def, commitFinish_state_evicted]
    split
    · exact lookupEv_isSome_mergeEvictedFiles _ _ _ hcs
    · exact hcs

/-- C10 witness: the concrete same-hash edit over the running state has its
file installed in the live `GlobalState` regardless of arbitration. -/
theorem commitEdit_installs_edit_witness :
    (editSameHash.updates.map File.path).Nodup ∧
    ((commitEdit stRunning editSameHash statusRunning true).state.initialGS.files
      = (applyEditFiles { gs := stRunning.initialGS }
          (hashFiles editSameHash.updates)).gs.files) :=
  ⟨by decide,
   (commitEdit_installs_edit stRunning editSameHash statusRunning true (by decide)).1⟩


theorem nthMapGen {α β : Type} (g : α → β) (l : List α) :
    ∀ i : Nat, (l.map g).get? i = (l.get? i).map g := by
  induction l with
  | nil => intro i; rfl
  | cons x rest ih =>
    intro i
    cases i with
    | zero => rfl
    | succ i2 => exact ih i2

theorem nth_lt_length {α : Type} (l : List α) :
    ∀ (i : Nat) (a : α), l.get? i = some a → i < l.length := by
  induction l with
  | nil => intro i a h; exact Option.noConfusion h
  | cons x rest ih =>
    intro i a h
    cases i with
    | zero => exact Nat.succ_pos _
    | succ i2 => exact Nat.succ_lt_succ (ih i2 a h)

theorem nth_mem {α : Type} (l : List α) :
    ∀ (i : Nat) (a : α), l.get? i = some a → a ∈ l := by
  induction l with
  | nil => intro i a h; exact Option.noConfusion h
  | cons x rest ih =>
    intro i a h
    cases i with
    | zero =>
      have h2 : x = a := by injection h
      rw [← h2]
      exact List.mem_cons_self x rest
    | succ i2 => exact List.mem_cons_of_mem x (ih i2 a h)

theorem memNth {α : Type} (l : List α) (a : α) (h : a ∈ l) :
    ∃ i, l.get? i = some a := by
  induction l with
  | nil => cases h
  | cons x rest ih =>
    rcases List.mem_cons.1 h with h2 | h2
    · exact ⟨0, by rw [h2]; rfl⟩
    · obtain ⟨i, hi⟩ := ih h2
      exact ⟨i + 1, hi⟩

theorem zipNthPair {α β : Type} (l1 : List α) :
    ∀ (l2 : List β) (m : Nat) (pr : α × β), (l1.zip l2).get? m = some pr →
      l1.get? m = some pr.1 ∧ l2.get? m = some pr.2 := by
  induction l1 with
  | nil => intro l2 m pr h; exact Option.noConfusion h
  | cons a l1 ih =>
    intro l2 m pr h
    cases l2 with
    | nil => exact Option.noConfusion h
    | cons b l2 =>
      cases m with
      | zero =>
        have h2 : (a, b) = pr := by injection h
        rw [← h2]
        exact ⟨rfl, rfl⟩
      | succ m2 => exact ih l2 m2 pr h

theorem zipAppendEq {α β : Type} (l1 : List α) :
    ∀ (l2 : List β) (r1 : List α) (r2 : List β), l1.length = l2.length →
      (l1 ++ r1).zip (l2 ++ r2) = l1.zip l2 ++ r1.zip r2 := by
  induction l1 with
  | nil =>
    intro l2 r1 r2 h
    cases l2 with
    | nil => rfl
    | cons b l2 => exact absurd h (by simp)
  | cons a l1 ih =>
    intro l2 r1 r2 h
    cases l2 with
    | nil => exact absurd h (by simp)
    | cons b l2 =>
      show (a, b) :: ((l1 ++ r1).zip (l2 ++ r2)) = (a, b) :: (l1.zip l2 ++ r1.zip r2)
      rw [ih l2 r1 r2 (Nat.succ_injective h)]

theorem zipMapFstSnd {α β : Type} (l : List (α × β)) :
    (l.map Prod.fst).zip (l.map Prod.snd) = l := by
  induction l with
  | nil => rfl
  | cons pr rest ih =>
    show (pr.1, pr.2) :: ((rest.map Prod.fst).zip (rest.map Prod.snd)) = pr :: rest
    rw [ih]

theorem nodupConcat {α : Type} (l : List α) (a : α) (hl : l.Nodup) (ha : a ∉ l) :
    (l ++ [a]).Nodup := by
  induction l with
  | nil => simp
  | cons x rest ih =>
    simp only [List.nodup_cons] at hl
    simp only [List.mem_cons, not_or] at ha
    simp only [List.cons_append, List.nodup_cons]
    refine ⟨?_, ih hl.2 ha.2⟩
    simp only [List.mem_append, List.mem_singleton, not_or]
    exact ⟨hl.1, fun he => ha.1 he.symm⟩

theorem posOf_eq_of_get? (frefs : List Nat) :
    ∀ (k id : Nat), frefs.Nodup → frefs.get? k = some id → posOf frefs id = k := by
  induction frefs with
  | nil => intro k id _ h; exact Option.noConfusion h
  | cons i0 rest ih =>
    intro k id hnd hk
    simp only [List.nodup_cons] at hnd
    cases k with
    | zero =>
      have h2 : i0 = id := by injection hk
      unfold posOf
      rw [if_pos h2]
    | succ k2 =>
      have hk2 : rest.get? k2 = some id := hk
      have hne : ¬ i0 = id := by
        intro he
        exact hnd.1 (by rw [he]; exact nth_mem rest k2 id hk2)
      unfold posOf
      rw [if_neg hne, ih k2 id hnd.2 hk2]

theorem get?_posOf (frefs : List Nat) :
    ∀ id : Nat, id ∈ frefs → frefs.get? (posOf frefs id) = some id := by
  induction frefs with
  | nil => intro id h; cases h
  | cons i0 rest ih =>
    intro id hmem
    unfold posOf
    by_cases he : i0 = id
    · rw [if_pos he]
      show some i0 = some id
      rw [he]
    · rw [if_neg he]
      rcases List.mem_cons.1 hmem with h2 | h2
      · exact absurd h2.symm he
      · show rest.get? (posOf rest id) = some id
        exact ih id h2

theorem insertSorted_perm (x : Nat) (l : List Nat) :
    List.Perm (insertSorted x l) (x :: l) := by
  induction l with
  | nil => exact List.Perm.refl _
  | cons y rest ih =>
    unfold insertSorted
    split
    · exact List.Perm.refl _
    · exact (List.Perm.cons y ih).trans (List.Perm.swap x y rest)

theorem sortNats_perm (l : List Nat) : List.Perm (sortNats l) l := by
  induction l with
  | nil => exact List.Perm.refl _
  | cons x rest ih =>
    unfold sortNats
    exact (insertSorted_perm x (sortNats rest)).trans (List.Perm.cons x ih)

theorem sortNats_nodup (l : List Nat) (h : l.Nodup) : (sortNats l).Nodup :=
  ((sortNats_perm l).nodup_iff).2 h

theorem sortNats_mem_rev (q : Nat) (l : List Nat) (h : q ∈ l) : q ∈ sortNats l :=
  ((sortNats_perm l).mem_iff).2 h

theorem reorderFold_preserve (frefs : List Nat) (ids : List Nat) :
    ∀ (acc : List ParsedFile) (k : Nat),
      (∀ j ∈ ids, posOf frefs j ≠ k) →
      ((ids.map (fun i => ({ file := i } : ParsedFile))).foldl
        (fun acc t => acc.set (posOf frefs t.file) t) acc).get? k = acc.get? k := by
  induction ids with
  | nil => intro acc k _; rfl
  | cons j0 rest ih =>
    intro acc k hne
    simp only [List.map_cons, List.foldl_cons]
    rw [ih _ k (fun j hj => hne j (List.mem_cons_of_mem j0 hj))]
    exact nthSetNe acc (posOf frefs j0) _ k (fun he => hne j0 (by simp) he.symm)

theorem reorderFold_sets (frefs : List Nat) (hfnd : frefs.Nodup) (ids : List Nat) :
    ∀ (acc : List ParsedFile) (k id : Nat),
      ids.Nodup → (∀ j ∈ ids, j ∈ frefs) →
      frefs.get? k = some id → id ∈ ids → acc.length = frefs.length →
      ((ids.map (fun i => ({ file := i } : ParsedFile))).foldl
        (fun acc t => acc.set (posOf frefs t.file) t) acc).get? k
        = some { file := id } := by
  induction ids with
  | nil => intro acc k id _ _ _ hmem _; cases hmem
  | cons j0 rest ih =>
    intro acc k id hnd hsub hk hmem hlen
    simp only [List.nodup_cons] at hnd
    simp only [List.map_cons, List.foldl_cons]
    rcases List.mem_cons.1 hmem with heq | hmem2
    · have hpos : posOf frefs j0 = k := by
        rw [heq] at hk
        exact posOf_eq_of_get? frefs k j0 hfnd hk
      rw [reorderFold_preserve frefs rest _ k ?pres]
      case pres =>
        intro j hj he
        have hjf : j ∈ frefs := hsub j (List.mem_cons_of_mem j0 hj)
        have h3 : frefs.get? k = some j := by
          rw [← he]
          exact get?_posOf frefs j hjf
        rw [hk] at h3
        have h4 : id = j := by injection h3
        rw [heq] at h4
        exact hnd.1 (h4 ▸ hj)
      · show (acc.set (posOf frefs j0) { file := j0 }).get? k = some { file := id }
        rw [hpos, heq]
        exact nthSetSelf acc k _ (by
          rw [hlen]
          rw [heq] at hk
          exact nth_lt_length frefs k j0 hk)
    · apply ih _ k id hnd.2 (fun j hj => hsub j (List.mem_cons_of_mem j0 hj)) hk hmem2
      rw [List.length_set]
      exact hlen

theorem reorderTrees_get (gs : GlobalState) (frefs : List Nat) (hnd : frefs.Nodup)
    (k id : Nat) (hk : frefs.get? k = some id) :
    (reorderTrees frefs (pipelineIndex gs frefs)).get? k = some { file := id } := by
  unfold reorderTrees pipelineIndex
  apply reorderFold_sets frefs hnd (sortNats frefs) _ k id (sortNats_nodup frefs hnd)
    (fun j hj => sortNats_mem j frefs hj) hk
    (sortNats_mem_rev id frefs (nth_mem frefs k id hk))
  simp [sortNats_length]


theorem applyEditFiles_paths_stable (files : List File) :
    ∀ (s : ApplyState) (j q : Nat),
      (s.gs.files.map File.path).get? j = some q →
      ((applyEditFiles s files).gs.files.map File.path).get? j = some q := by
  induction files with
  | nil => intro s j q h; exact h
  | cons f0 rest ih =>
    intro s j q h
    cases hmatch : s.gs.findFileByPath f0.path with
    | some j0 =>
      rw [applyEditFiles_cons_some s f0 rest j0 hmatch]
      apply ih
      show ((s.gs.replaceFile j0 f0).files.map File.path).get? j = some q
      rw [replaceFile_paths s.gs j0 f0 (findPathIdx_get? _ _ j0 hmatch)]
      exact h
    | none =>
      rw [applyEditFiles_cons_none s f0 rest hmatch]
      apply ih
      show ((s.gs.files
        ++ [{ f0 with strictLevel := decideStrictLevel s.gs s.gs.files.length }]).map
          File.path).get? j = some q
      rw [List.map_append, nthAppendLeft _ _ j (nth_lt_length _ j q h)]
      exact h

theorem applyEditFiles_frefs_stable (files : List File) :
    ∀ (s : ApplyState) (k : Nat), k < s.frefs.length →
      (applyEditFiles s files).frefs.get? k = s.frefs.get? k := by
  induction files with
  | nil => intro s k _; rfl
  | cons f0 rest ih =>
    intro s k hk
    cases hmatch : s.gs.findFileByPath f0.path with
    | some j0 =>
      rw [applyEditFiles_cons_some s f0 rest j0 hmatch]
      rw [ih _ k (by
        show k < (s.frefs ++ [j0]).length
        simp only [List.length_append, List.length_cons, List.length_nil]
        omega)]
      show (s.frefs ++ [j0]).get? k = s.frefs.get? k
      exact nthAppendLeft _ _ k hk
    | none =>
      rw [applyEditFiles_cons_none s f0 rest hmatch]
      rw [ih _ k (by
        show k < (s.frefs ++ [s.gs.files.length]).length
        simp only [List.length_append, List.length_cons, List.length_nil]
        omega)]
      show (s.frefs ++ [s.gs.files.length]).get? k = s.frefs.get? k
      exact nthAppendLeft _ _ k hk

theorem applyEditFiles_locates (files : List File) :
    ∀ (s : ApplyState) (k : Nat) (f : File),
      files.get? k = some f →
      ∃ id, (applyEditFiles s files).frefs.get? (s.frefs.length + k) = some id ∧
        ((applyEditFiles s files).gs.files.map File.path).get? id = some f.path := by
  induction files with
  | nil => intro s k f h; exact Option.noConfusion h
  | cons f0 rest ih =>
    intro s k f hget
    cases k with
    | zero =>
      have h2 : f0 = f := by injection hget
      subst h2
      cases hmatch : s.gs.findFileByPath f0.path with
      | some j0 =>
        rw [applyEditFiles_cons_some s f0 rest j0 hmatch]
        refine ⟨j0, ?_, ?_⟩
        · rw [Nat.add_zero]
          rw [applyEditFiles_frefs_stable rest _ s.frefs.length (by
            show s.frefs.length < (s.frefs ++ [j0]).length
            simp only [List.length_append, List.length_cons, List.length_nil]
            omega)]
          show (s.frefs ++ [j0]).get? s.frefs.length = some j0
          exact nthConcatLength _ _
        · apply applyEditFiles_paths_stable
          show ((s.gs.replaceFile j0 f0).files.map File.path).get? j0 = some f0.path
          rw [replaceFile_paths s.gs j0 f0 (findPathIdx_get? _ _ j0 hmatch)]
          exact findPathIdx_get? _ _ j0 hmatch
      | none =>
        rw [applyEditFiles_cons_none s f0 rest hmatch]
        refine ⟨s.gs.files.length, ?_, ?_⟩
        · rw [Nat.add_zero]
          rw [applyEditFiles_frefs_stable rest _ s.frefs.length (by
            show s.frefs.length < (s.frefs ++ [s.gs.files.length]).length
            simp only [List.length_append, List.length_cons, List.length_nil]
            omega)]
          show (s.frefs ++ [s.gs.files.length]).get? s.frefs.length = some s.gs.files.length
          exact nthConcatLength _ _
        · apply applyEditFiles_paths_stable
          show ((s.gs.files
            ++ [{ f0 with strictLevel := decideStrictLevel s.gs s.gs.files.length }]).map
              File.path).get? s.gs.files.length = some f0.path
          rw [List.map_append]
          have hl : (s.gs.files.map File.path).length = s.gs.files.length :=
            List.length_map _ _
          rw [← hl]
          show ((s.gs.files.map File.path) ++ [f0.path]).get?
            (s.gs.files.map File.path).length = some f0.path
          exact nthConcatLength _ _
    | succ k2 =>
      have hget2 : rest.get? k2 = some f := hget
      cases hmatch : s.gs.findFileByPath f0.path with
      | some j0 =>
        rw [applyEditFiles_cons_some s f0 rest j0 hmatch]
        obtain ⟨id, h1, h2⟩ := ih
          { gs := s.gs.replaceFile j0 f0
            newlyEvicted := insertEv s.newlyEvicted j0 (s.gs.files.getD j0 default)
            hasNewFiles := s.hasNewFiles
            frefs := s.frefs ++ [j0] } k2 f hget2
        refine ⟨id, ?_, h2⟩
        rw [show s.frefs.length + (k2 + 1) = (s.frefs ++ [j0]).length + k2 by
          simp only [List.length_append, List.length_cons, List.length_nil]
          omega]
        exact h1
      | none =>
        rw [applyEditFiles_cons_none s f0 rest hmatch]
        obtain ⟨id, h1, h2⟩ := ih
          { gs := { s.gs with files := s.gs.files ++
              [{ f0 with strictLevel := decideStrictLevel s.gs s.gs.files.length }] }
            newlyEvicted := s.newlyEvicted
            hasNewFiles := true
            frefs := s.frefs ++ [s.gs.files.length] } k2 f hget2
        refine ⟨id, ?_, h2⟩
        rw [show s.frefs.length + (k2 + 1) = (s.frefs ++ [s.gs.files.length]).length + k2 by
          simp only [List.length_append, List.length_cons, List.length_nil]
          omega]
        exact h1

theorem applyEditFiles_frefs_nodup (files : List File) :
    ∀ s : ApplyState,
      (files.map File.path).Nodup →
      s.frefs.Nodup →
      (∀ j ∈ s.frefs, j < s.gs.files.length) →
      (∀ j ∈ s.frefs, ∀ f ∈ files, (s.gs.files.map File.path).get? j ≠ some f.path) →
      (applyEditFiles s files).frefs.Nodup := by
  induction files with
  | nil => intro s _ hnd _ _; exact hnd
  | cons f0 rest ih =>
    intro s hpaths hnd hbound hdiff
    simp only [List.map_cons, List.nodup_cons] at hpaths
    obtain ⟨hp0, hprest⟩ := hpaths
    cases hmatch : s.gs.findFileByPath f0.path with
    | some j0 =>
      rw [applyEditFiles_cons_some s f0 rest j0 hmatch]
      have hjpath : (s.gs.files.map File.path).get? j0 = some f0.path :=
        findPathIdx_get? _ _ j0 hmatch
      have hj0lt : j0 < s.gs.files.length := by
        have h2 := findPathIdx_lt_length _ _ j0 hmatch
        simpa using h2
      have hj0new : j0 ∉ s.frefs := fun hmem =>
        hdiff j0 hmem f0 (List.mem_cons_self f0 rest) hjpath
      apply ih
      · exact hprest
      · show (s.frefs ++ [j0]).Nodup
        exact nodupConcat _ _ hnd hj0new
      · intro j hj
        show j < (s.gs.files.set j0 f0).length
        rw [List.length_set]
        rcases List.mem_append.1 hj with hj | hj
        · exact hbound j hj
        · rw [List.mem_singleton.1 hj]
          exact hj0lt
      · intro j hj f hf
        show ((s.gs.replaceFile j0 f0).files.map File.path).get? j ≠ some f.path
        rw [replaceFile_paths s.gs j0 f0 hjpath]
        rcases List.mem_append.1 hj with hj | hj
        · exact hdiff j hj f (List.mem_cons_of_mem f0 hf)
        · rw [List.mem_singleton.1 hj, hjpath]
          intro he
          injection he with he2
          exact hp0 (by rw [he2]; exact List.mem_map_of_mem File.path hf)
    | none =>
      rw [applyEditFiles_cons_none s f0 rest hmatch]
      have hLnew : s.gs.files.length ∉ s.frefs := fun hmem =>
        Nat.lt_irrefl _ (hbound _ hmem)
      apply ih
      · exact hprest
      · show (s.frefs ++ [s.gs.files.length]).Nodup
        exact nodupConcat _ _ hnd hLnew
      · intro j hj
        show j < (s.gs.files
          ++ [{ f0 with strictLevel := decideStrictLevel s.gs s.gs.files.length }]).length
        rw [List.length_append]
        simp only [List.length_cons, List.length_nil]
        rcases List.mem_append.1 hj with hj | hj
        · have := hbound j hj
          omega
        · rw [List.mem_singleton.1 hj]
          omega
      · intro j hj f hf
        show ((s.gs.files
          ++ [{ f0 with strictLevel := decideStrictLevel s.gs s.gs.files.length }]).map
            File.path).get? j ≠ some f.path
        rw [List.map_append]
        rcases List.mem_append.1 hj with hj | hj
        · rw [nthAppendLeft _ _ j (by rw [List.length_map]; exact hbound j hj)]
          exact hdiff j hj f (List.mem_cons_of_mem f0 hf)
        · rw [List.mem_singleton.1 hj]
          have hL : ((s.gs.files.map File.path)
              ++ ([{ f0 with strictLevel := decideStrictLevel s.gs s.gs.files.length }].map
                File.path)).get? s.gs.files.length = some f0.path := by
            have hl : (s.gs.files.map File.path).length = s.gs.files.length :=
              List.length_map _ _
            rw [← hl]
            show ((s.gs.files.map File.path) ++ [f0.path]).get?
              (s.gs.files.map File.path).length = some f0.path
            exact nthConcatLength _ _
          rw [hL]
          intro he
          injection he with he2
          exact hp0 (by rw [he2]; exact List.mem_map_of_mem File.path hf)


theorem treesAligned_applyEdit (st : IndexerState) (edit : SorbetWorkspaceEditParams)
    (u : LSPFileUpdates)
    (h : treesAligned st.initialGS u.updatedFiles u.updatedFileIndexes) :
    treesAligned (commitPrepare st edit).gs u.updatedFiles u.updatedFileIndexes := by
  obtain ⟨h1, h2⟩ := h
  refine ⟨h1, ?_⟩
  intro pr hpr
  show ((applyEditFiles { gs := st.initialGS } (hashFiles edit.updates)).gs.files.map
    File.path).get? pr.2.file = some pr.1.path
  exact applyEditFiles_paths_stable (hashFiles edit.updates) { gs := st.initialGS }
    pr.2.file pr.1.path (h2 pr hpr)

theorem commitPrepare_treesAligned (st : IndexerState) (edit : SorbetWorkspaceEditParams)
    (hnd : (edit.updates.map File.path).Nodup) :
    treesAligned (commitPrepare st edit).gs (commitPrepare st edit).update.updatedFiles
      (commitPrepare st edit).update.updatedFileIndexes := by
  refine ⟨commitPrepare_aligned st edit, ?_⟩
  intro pr hpr
  have hfnd : (applyEditFiles { gs := st.initialGS } (hashFiles edit.updates)).frefs.Nodup := by
    apply applyEditFiles_frefs_nodup (hashFiles edit.updates) { gs := st.initialGS }
    · rw [hashFiles_paths]
      exact hnd
    · exact List.nodup_nil
    · intro j hj
      exact absurd hj (List.not_mem_nil j)
    · intro j hj
      exact absurd hj (List.not_mem_nil j)
  rw [commitPrepare_updatedFiles, commitPrepare_updatedFileIndexes] at hpr
  obtain ⟨m, hm⟩ := memNth _ pr hpr
  obtain ⟨hm1, hm2⟩ := zipNthPair _ _ m pr hm
  obtain ⟨id, hid1, hid2⟩ := applyEditFiles_locates (hashFiles edit.updates)
    { gs := st.initialGS } m pr.1 hm1
  have hid1' : (applyEditFiles { gs := st.initialGS } (hashFiles edit.updates)).frefs.get? m
      = some id := by
    have h0 : ({ gs := st.initialGS } : ApplyState).frefs.length + m = m := by
      show ([] : List Nat).length + m = m
      simp
    rw [h0] at hid1
    exact hid1
  have htree := reorderTrees_get (commitPrepare st edit).gs
    (applyEditFiles { gs := st.initialGS } (hashFiles edit.updates)).frefs hfnd m id hid1'
  rw [htree] at hm2
  have hpr2 : pr.2 = { file := id } := by
    injection hm2 with h3
    exact h3.symm
  show ((commitPrepare st edit).gs.files.map File.path).get? pr.2.file = some pr.1.path
  rw [hpr2]
  exact hid2

theorem mergeOlder_treesAligned (gs : GlobalState) (a b : LSPFileUpdates)
    (ha : treesAligned gs a.updatedFiles a.updatedFileIndexes)
    (hb : treesAligned gs b.updatedFiles b.updatedFileIndexes) :
    treesAligned gs (a.mergeOlder b).updatedFiles (a.mergeOlder b).updatedFileIndexes := by
  obtain ⟨hal, haz⟩ := ha
  obtain ⟨hbl, hbz⟩ := hb
  constructor
  · exact mergeOlder_align a b hal
  · intro pr hpr
    simp only [LSPFileUpdates.mergeOlder] at hpr
    rw [zipAppendEq a.updatedFiles a.updatedFileIndexes _ _ hal, zipMapFstSnd] at hpr
    rcases List.mem_append.1 hpr with h | h
    · exact haz pr h
    · exact hbz pr (List.mem_of_mem_filter h)

/-- C6 (amended): every `commitEdit` return value satisfies
`|updatedFiles| = |updatedFileIndexes|` with the two vectors aligned
one-to-one in edit order — at each position the parsed tree's file id is the
slot of the paired updated file's path in the post-edit `GlobalState` —
stated under the ENFORCEd no-duplicate-paths precondition and the ledger
invariant that `pendingTypecheckUpdates` is itself aligned; `initialize`,
however, does not populate `updatedFiles` — its output keeps the caller's
`updatedFiles` while `updatedFileIndexes` gets one slot per `GlobalState`
file — so the equality fails for the `initialize` output whenever the file
table is nonempty. -/
theorem commitEdit_files_indexes_aligned (st : IndexerState)
    (edit : SorbetWorkspaceEditParams) (status : EpochStatus) (co : Bool)
    (st0 : IndexerState) (u0 : LSPFileUpdates)
    (h0 : st0.initialized = false)
    (hnd : (edit.updates.map File.path).Nodup)
    (hpend : treesAligned st.initialGS st.pendingTypecheckUpdates.updatedFiles
        st.pendingTypecheckUpdates.updatedFileIndexes) :
    ((commitEdit st edit status co).update.updatedFiles.length
      = (commitEdit st edit status co).update.updatedFileIndexes.length) ∧
    treesAligned (commitEdit st edit status co).state.initialGS
      (commitEdit st edit status co).update.updatedFiles
      (commitEdit st edit status co).update.updatedFileIndexes ∧
    (indexerInit st0 u0 = Except.ok (initState st0, initOut st0 u0) ∧
     (initOut st0 u0).updatedFiles = u0.updatedFiles ∧
     (initOut st0 u0).updatedFileIndexes.length = (initState st0).initialGS.files.length) := by
  have hprep := commitPrepare_treesAligned st edit hnd
  have hpend2 := treesAligned_applyEdit st edit st.pendingTypecheckUpdates hpend
  have hchoose : treesAligned (commitPrepare st edit).gs
      (commitChoose st (commitPrepare st edit) status co).update.updatedFiles
      (commitChoose st (commitPrepare st edit) status co).update.updatedFileIndexes := by
    rcases commitChoose_update_cases st (commitPrepare st edit) status co with h | h <;>
      rw [h]
    · exact hprep
    · show treesAligned (commitPrepare st edit).gs
        (commitMerged st (commitPrepare st edit)).updatedFiles
        (commitMerged st (commitPrepare st edit)).updatedFileIndexes
      rw [commitMerged_updatedFiles, commitMerged_updatedFileIndexes]
      apply mergeOlder_treesAligned
      · rw [copy_updatedFiles, copy_updatedFileIndexes]
        exact hprep
      · exact hpend2
  have halign : treesAligned (commitPrepare st edit).gs
      (commitEdit st edit status co).update.updatedFiles
      (commitEdit st edit status co).update.updatedFileIndexes := by
    rw [commitEdit_update_def, commitFinish_update_eq]
    split
    · exact hchoose
    · exact hchoose
  have hgs : (commitEdit st edit status co).state.initialGS = (commitPrepare st edit).gs := by
    rw [commitEdit_state_def, commitFinish_state_initialGS]
  refine ⟨halign.1, ?_, indexerInit_eq st0 u0 h0, rfl, ?_⟩
  · rw [hgs]
    exact halign
  · show (initIndexed st0).length = (initHashedGS st0).files.length
    exact initIndexed_length st0

/-- C6 witness: the amended statement at the concrete running state (whose
pending ledger is aligned), the same-hash edit, and the fresh indexer. -/
theorem commitEdit_files_indexes_aligned_witness :
    stFresh.initialized = false ∧
    (editSameHash.updates.map File.path).Nodup ∧
    treesAligned stRunning.initialGS stRunning.pendingTypecheckUpdates.updatedFiles
      stRunning.pendingTypecheckUpdates.updatedFileIndexes ∧
    treesAligned (commitEdit stRunning editSameHash statusRunning true).state.initialGS
      (commitEdit stRunning editSameHash statusRunning true).update.updatedFiles
      (commitEdit stRunning editSameHash statusRunning true).update.updatedFileIndexes :=
  ⟨rfl, by decide, by decide,
   (commitEdit_files_indexes_aligned stRunning editSameHash statusRunning true stFresh {}
     rfl (by decide) (by decide)).2.1⟩

end Sorbet
